import Mathlib

/-!
Verification of the windowed temporal network metrics engine
(mimetics_metrics package): shallow embedding of the window generator,
graph builder, top-k concentration, NMI partition agreement, burst
detection and dose-response modules, together with theorems settling the
frozen specification claims.

Numeric convention: Python floats are modelled by exact rationals; the two
places where the source takes a square root (the mean-plus-k-std burst
threshold and effect-size statistics) are represented by their squares or
by an exact decision procedure, as documented at each definition.
-/

namespace Mimetics

/-! ### Graph builder (src/mimetics_metrics/graphs.py, build_graph) -/

/-- Weighted directed graph as produced by build_graph: a node set, a set of
directed edges, and a weight function (meaningful on members of `edges`). -/
structure WGraph (α : Type) [DecidableEq α] where
  nodes : Finset α
  edges : Finset (α × α)
  weight : α × α → ℕ

variable {α : Type} [DecidableEq α]

/-- One iteration of the row loop in build_graph: self-loops are skipped;
an existing edge has its weight incremented; a new edge is inserted with
weight 1 (nx.add_edge also inserts both endpoints). -/
def addInteraction (G : WGraph α) (src dst : α) : WGraph α :=
  if src = dst then G
  else if (src, dst) ∈ G.edges then
    { G with weight := fun e => if e = (src, dst) then G.weight (src, dst) + 1 else G.weight e }
  else
    { nodes := insert src (insert dst G.nodes),
      edges := insert (src, dst) G.edges,
      weight := fun e => if e = (src, dst) then 1 else G.weight e }

/-- build_graph (graphs.py lines 14-54): fold the interaction rows into a
weighted directed graph. -/
def build_graph (interactions : List (α × α)) : WGraph α :=
  interactions.foldl (fun G r => addInteraction G r.1 r.2) ⟨∅, ∅, fun _ => 0⟩

/-- Union of the source and target endpoints of a list of interaction rows
(the node set the spec describes). -/
def claimNodeSet (l : List (α × α)) : Finset α :=
  (l.map Prod.fst).toFinset ∪ (l.map Prod.snd).toFinset

/-- Endpoint containment invariant maintained by the build loop. -/
def EdgesInNodes (G : WGraph α) : Prop :=
  ∀ e ∈ G.edges, e.1 ∈ G.nodes ∧ e.2 ∈ G.nodes

lemma claimNodeSet_cons (r : α × α) (l : List (α × α)) :
    claimNodeSet (r :: l) = insert r.1 (insert r.2 (claimNodeSet l)) := by
  ext x
  simp [claimNodeSet]
  tauto

/-- Characterisation of the build_graph fold from an arbitrary accumulator:
nodes gain exactly the endpoints of non-self-loop rows, edges gain exactly
the distinct non-self-loop ordered pairs, and the weight of a non-loop pair
increases by its number of occurrences. -/
lemma build_loop_spec (l : List (α × α)) :
    ∀ G : WGraph α, EdgesInNodes G →
      (l.foldl (fun G r => addInteraction G r.1 r.2) G).nodes
          = G.nodes ∪ claimNodeSet (l.filter fun r => decide (r.1 ≠ r.2))
      ∧ (l.foldl (fun G r => addInteraction G r.1 r.2) G).edges
          = G.edges ∪ (l.filter fun r => decide (r.1 ≠ r.2)).toFinset
      ∧ ∀ e : α × α, e.1 ≠ e.2 →
          (l.foldl (fun G r => addInteraction G r.1 r.2) G).weight e
            = if e ∈ G.edges then G.weight e + l.count e
              else if 0 < l.count e then l.count e else G.weight e := by
  induction l with
  | nil =>
    intro G _
    refine ⟨by simp [claimNodeSet], by simp, ?_⟩
    intro e _
    by_cases h : e ∈ G.edges <;> simp [h]
  | cons r t ih =>
    intro G hG
    by_cases hrr : r.1 = r.2
    · -- self-loop: the row is skipped
      have hstep : (r :: t).foldl (fun G r => addInteraction G r.1 r.2) G
          = t.foldl (fun G r => addInteraction G r.1 r.2) G := by
        rw [List.foldl_cons]
        congr 1
        simp [addInteraction, hrr]
      have hfilter : (r :: t).filter (fun x => decide (x.1 ≠ x.2))
          = t.filter (fun x => decide (x.1 ≠ x.2)) := by
        simp [List.filter_cons, hrr]
      obtain ⟨hn, he, hw⟩ := ih G hG
      rw [hstep, hfilter]
      refine ⟨hn, he, ?_⟩
      intro e hee
      have hne : r ≠ e := fun h => hee (by rw [← h]; exact hrr)
      rw [hw e hee]
      simp [List.count_cons, hne]
    · have hfilter : (r :: t).filter (fun x => decide (x.1 ≠ x.2))
          = r :: t.filter (fun x => decide (x.1 ≠ x.2)) := by
        simp [List.filter_cons, hrr]
      rw [List.foldl_cons, hfilter, claimNodeSet_cons, List.toFinset_cons]
      by_cases hmem : (r.1, r.2) ∈ G.edges
      · -- existing edge: weight bump only
        have hrG : r ∈ G.edges := hmem
        have hstep : addInteraction G r.1 r.2
            = (⟨G.nodes, G.edges, fun e => if e = r then G.weight r + 1 else G.weight e⟩ :
                WGraph α) := by
          unfold addInteraction
          rw [if_neg hrr, if_pos hmem]
        rw [hstep]
        have hG2 : EdgesInNodes
            (⟨G.nodes, G.edges, fun e => if e = r then G.weight r + 1 else G.weight e⟩ :
              WGraph α) := hG
        obtain ⟨hn, he, hw⟩ := ih _ hG2
        have hn' : (t.foldl (fun G r => addInteraction G r.1 r.2)
              (⟨G.nodes, G.edges, fun e => if e = r then G.weight r + 1 else G.weight e⟩ :
                WGraph α)).nodes
            = G.nodes ∪ claimNodeSet (t.filter (fun x => decide (x.1 ≠ x.2))) := hn
        have he' : (t.foldl (fun G r => addInteraction G r.1 r.2)
              (⟨G.nodes, G.edges, fun e => if e = r then G.weight r + 1 else G.weight e⟩ :
                WGraph α)).edges
            = G.edges ∪ (t.filter (fun x => decide (x.1 ≠ x.2))).toFinset := he
        have hw' : ∀ e : α × α, e.1 ≠ e.2 →
            (t.foldl (fun G r => addInteraction G r.1 r.2)
              (⟨G.nodes, G.edges, fun e => if e = r then G.weight r + 1 else G.weight e⟩ :
                WGraph α)).weight e
            = if e ∈ G.edges
                then (if e = r then G.weight r + 1 else G.weight e) + t.count e
                else if 0 < t.count e then t.count e
                else (if e = r then G.weight r + 1 else G.weight e) := hw
        have h1 : r.1 ∈ G.nodes := (hG r hrG).1
        have h2 : r.2 ∈ G.nodes := (hG r hrG).2
        refine ⟨?_, ?_, ?_⟩
        · rw [hn']
          ext x
          simp only [Finset.mem_union, Finset.mem_insert]
          constructor
          · rintro (h | h)
            · exact Or.inl h
            · exact Or.inr (Or.inr (Or.inr h))
          · rintro (h | h | h | h)
            · exact Or.inl h
            · exact Or.inl (h ▸ h1)
            · exact Or.inl (h ▸ h2)
            · exact Or.inr h
        · rw [he']
          ext e
          simp only [Finset.mem_union, Finset.mem_insert]
          constructor
          · rintro (h | h)
            · exact Or.inl h
            · exact Or.inr (Or.inr h)
          · rintro (h | h | h)
            · exact Or.inl h
            · exact Or.inl (h ▸ hrG)
            · exact Or.inr h
        · intro e hee
          rw [hw' e hee]
          by_cases her : e = r
          · subst her
            have heG : e ∈ G.edges := hrG
            simp [heG, List.count_cons]
            omega
          · by_cases heG : e ∈ G.edges
            · simp [heG, her, List.count_cons, Ne.symm her]
            · simp [heG, her, List.count_cons, Ne.symm her]
      · -- new edge inserted with weight 1
        have hrG : r ∉ G.edges := hmem
        have hstep : addInteraction G r.1 r.2
            = (⟨insert r.1 (insert r.2 G.nodes), insert r G.edges,
                fun e => if e = r then 1 else G.weight e⟩ : WGraph α) := by
          unfold addInteraction
          rw [if_neg hrr, if_neg hmem]
        rw [hstep]
        have hG3 : EdgesInNodes
            (⟨insert r.1 (insert r.2 G.nodes), insert r G.edges,
              fun e => if e = r then 1 else G.weight e⟩ : WGraph α) := by
          intro e he
          rcases Finset.mem_insert.mp he with he | he
          · subst he
            exact ⟨Finset.mem_insert_self _ _,
              Finset.mem_insert_of_mem (Finset.mem_insert_self _ _)⟩
          · obtain ⟨ha, hb⟩ := hG e he
            exact ⟨Finset.mem_insert_of_mem (Finset.mem_insert_of_mem ha),
              Finset.mem_insert_of_mem (Finset.mem_insert_of_mem hb)⟩
        obtain ⟨hn, he, hw⟩ := ih _ hG3
        have hn' : (t.foldl (fun G r => addInteraction G r.1 r.2)
              (⟨insert r.1 (insert r.2 G.nodes), insert r G.edges,
                fun e => if e = r then 1 else G.weight e⟩ : WGraph α)).nodes
            = insert r.1 (insert r.2 G.nodes)
                ∪ claimNodeSet (t.filter (fun x => decide (x.1 ≠ x.2))) := hn
        have he' : (t.foldl (fun G r => addInteraction G r.1 r.2)
              (⟨insert r.1 (insert r.2 G.nodes), insert r G.edges,
                fun e => if e = r then 1 else G.weight e⟩ : WGraph α)).edges
            = insert r G.edges ∪ (t.filter (fun x => decide (x.1 ≠ x.2))).toFinset := he
        have hw' : ∀ e : α × α, e.1 ≠ e.2 →
            (t.foldl (fun G r => addInteraction G r.1 r.2)
              (⟨insert r.1 (insert r.2 G.nodes), insert r G.edges,
                fun e => if e = r then 1 else G.weight e⟩ : WGraph α)).weight e
            = if e ∈ insert r G.edges
                then (if e = r then 1 else G.weight e) + t.count e
                else if 0 < t.count e then t.count e
                else (if e = r then 1 else G.weight e) := hw
        refine ⟨?_, ?_, ?_⟩
        · rw [hn']
          ext x
          simp only [Finset.mem_union, Finset.mem_insert]
          tauto
        · rw [he']
          ext e
          simp only [Finset.mem_union, Finset.mem_insert]
          tauto
        · intro e hee
          rw [hw' e hee]
          by_cases her : e = r
          · subst her
            have hin : e ∈ insert e G.edges := Finset.mem_insert_self _ _
            simp [hin, hrG, List.count_cons]
            omega
          · by_cases heG : e ∈ G.edges
            · have hin : e ∈ insert r G.edges := Finset.mem_insert_of_mem heG
              simp [hin, heG, her, List.count_cons, Ne.symm her]
            · have hnotin : e ∉ insert r G.edges := fun h =>
                (Finset.mem_insert.mp h).elim her heG
              simp [hnotin, heG, her, List.count_cons, Ne.symm her]

lemma build_graph_nodes (l : List (α × α)) :
    (build_graph l).nodes = claimNodeSet (l.filter fun r => decide (r.1 ≠ r.2)) := by
  have h := build_loop_spec l ⟨∅, ∅, fun _ => 0⟩ (by intro e he; simp at he)
  simpa [build_graph] using h.1

lemma build_graph_edges (l : List (α × α)) :
    (build_graph l).edges = (l.filter fun r => decide (r.1 ≠ r.2)).toFinset := by
  have h := build_loop_spec l ⟨∅, ∅, fun _ => 0⟩ (by intro e he; simp at he)
  simpa [build_graph] using h.2.1

lemma build_graph_weight (l : List (α × α)) (e : α × α) (hee : e.1 ≠ e.2) :
    (build_graph l).weight e = if 0 < l.count e then l.count e else 0 := by
  have h := build_loop_spec l ⟨∅, ∅, fun _ => 0⟩ (by intro e he; simp at he)
  have := h.2.2 e hee
  simpa [build_graph] using this

/-! ### Window generator (src/mimetics_metrics/windows.py) -/

/-- Interaction record: source, destination and normalized timestamp. -/
structure Interaction (α : Type) where
  src : α
  dst : α
  ts : ℚ

/-- WindowProcessor.get_window_data with no case filter: interactions whose
timestamp lies in the half-open window. -/
def get_window_data (df : List (Interaction α)) (t_start t_end : ℚ) :
    List (Interaction α) :=
  df.filter fun r => decide (t_start ≤ r.ts) && decide (r.ts < t_end)

/-- Summary record returned by WindowProcessor.get_window_metadata. -/
structure WindowMeta where
  n_nodes : ℕ
  n_edges : ℕ
  density : ℚ

/-- WindowProcessor.get_window_metadata (windows.py lines 113-158): raw node
and edge counts for a window; n_edges is the raw row count and n_nodes counts
endpoints of all rows, self-loops included. -/
def get_window_metadata (df : List (Interaction α)) (t_start t_end : ℚ) :
    WindowMeta :=
  let w := get_window_data df t_start t_end
  if w.length = 0 then ⟨0, 0, 0⟩
  else
    let n := ((w.map Interaction.src).toFinset ∪ (w.map Interaction.dst).toFinset).card
    let m := w.length
    let maxE : ℕ := if 1 < n then n * (n - 1) else 0
    ⟨n, m, if 0 < maxE then (m : ℚ) / (maxE : ℚ) else 0⟩

/-- Source/destination pair of an interaction row. -/
def interPair (r : Interaction α) : α × α := (r.src, r.dst)

/-! ### create_windows (windows.py lines 14-52), fuel-indexed model

The source loop `while current_start + window_delta <= end_time` has no
validation of the window or step size. The model below is fuel-indexed:
a result of none means the loop has not finished within the given fuel,
so divergence is the statement that every fuel amount returns none. -/

/-- Minimum of a nonempty series (pandas df[col].min()); 0 for an empty list,
a case the callers below never use. -/
def seriesMin : List ℚ → ℚ
  | [] => 0
  | t :: ts => ts.foldl min t

/-- Maximum of a nonempty series (pandas df[col].max()). -/
def seriesMax : List ℚ → ℚ
  | [] => 0
  | t :: ts => ts.foldl max t

/-- The while loop of create_windows, with explicit fuel. -/
def create_windows_loop (wdelta sdelta endT : ℚ) : ℕ → ℚ → Option (List (ℚ × ℚ))
  | 0, _ => none
  | fuel + 1, cur =>
    if cur + wdelta ≤ endT then
      match create_windows_loop wdelta sdelta endT fuel (cur + sdelta) with
      | none => none
      | some ws => some ((cur, cur + wdelta) :: ws)
    else some []

/-- create_windows: on an empty frame the min/max are NaN and the float
comparison in the loop guard is false, so no windows are produced; otherwise
run the loop from the minimum timestamp. -/
def create_windows_fuel (fuel : ℕ) (times : List ℚ) (wdelta sdelta : ℚ) :
    Option (List (ℚ × ℚ)) :=
  match times with
  | [] => some []
  | _ :: _ => create_windows_loop wdelta sdelta (seriesMax times) fuel (seriesMin times)

lemma create_windows_loop_none (wdelta sdelta endT : ℚ) (hs : sdelta ≤ 0) :
    ∀ (fuel : ℕ) (cur : ℚ), cur + wdelta ≤ endT →
      create_windows_loop wdelta sdelta endT fuel cur = none := by
  intro fuel
  induction fuel with
  | zero => intro cur _; rfl
  | succ n ih =>
    intro cur h
    have h2 : (cur + sdelta) + wdelta ≤ endT := by linarith
    rw [create_windows_loop, if_pos h, ih (cur + sdelta) h2]

/-- C3: the spec says a window width or step that is nonpositive is rejected
at construction with an error. The code performs no such validation: whenever
the step is nonpositive and at least one window fits in the time span, the
while loop never advances past the span and create_windows never terminates
(every fuel bound is exhausted), instead of failing immediately. -/
theorem create_windows_nonpositive_step_diverges
    (fuel : ℕ) (times : List ℚ) (wdelta sdelta : ℚ)
    (hs : sdelta ≤ 0) (hne : times ≠ [])
    (hfit : seriesMin times + wdelta ≤ seriesMax times) :
    create_windows_fuel fuel times wdelta sdelta = none := by
  match times, hne with
  | t :: ts, _ =>
    exact create_windows_loop_none wdelta sdelta (seriesMax (t :: ts)) hs fuel
      (seriesMin (t :: ts)) hfit

/-- Witness for C3: a data frame spanning ten hours with a one hour window and
a zero step never finishes, for a concrete fuel bound. -/
theorem create_windows_nonpositive_step_diverges_witness :
    (0 : ℚ) ≤ 0 ∧ ([(0 : ℚ), 10] : List ℚ) ≠ [] ∧
      seriesMin [(0 : ℚ), 10] + 1 ≤ seriesMax [(0 : ℚ), 10] ∧
      create_windows_fuel 100 [(0 : ℚ), 10] 1 0 = none :=
  ⟨le_refl 0, by decide, by norm_num [seriesMin, seriesMax],
    create_windows_nonpositive_step_diverges 100 [0, 10] 1 0 (le_refl 0)
      (by decide) (by norm_num [seriesMin, seriesMax])⟩

/-! ### Claims C1 and C2 -/

/-- C2 as stated is false: build_graph skips self-loop rows entirely, so a
node appearing only in self-loop interactions is absent from the node set,
while the union of endpoints of the interactions contains it. -/
theorem build_graph_nodes_counterexample :
    (build_graph [((0 : ℕ), 0)]).nodes ≠ claimNodeSet [((0 : ℕ), 0)] := by
  decide

/-- C2 (amended): the node set of build_graph equals the union of endpoints
of the non-self-loop interactions, the graph has no self-loop edges, and
every ordered pair (u, v) with u distinct from v occurring k at least once
in the input is an edge of weight exactly its occurrence count. -/
theorem build_graph_invariants (l : List (α × α)) (u v : α)
    (huv : u ≠ v) (hcount : 0 < l.count (u, v)) :
    (build_graph l).nodes = claimNodeSet (l.filter fun r => decide (r.1 ≠ r.2))
    ∧ (∀ e ∈ (build_graph l).edges, e.1 ≠ e.2)
    ∧ (u, v) ∈ (build_graph l).edges
    ∧ (build_graph l).weight (u, v) = l.count (u, v) := by
  have hedges := build_graph_edges l
  refine ⟨build_graph_nodes l, ?_, ?_, ?_⟩
  · intro e he
    rw [hedges] at he
    have := List.of_mem_filter (List.mem_toFinset.mp he)
    simpa using this
  · rw [hedges, List.mem_toFinset, List.mem_filter]
    refine ⟨List.count_pos_iff.mp hcount, by simpa using huv⟩
  · rw [build_graph_weight l (u, v) (by simpa using huv), if_pos hcount]

/-- Witness for C2 (amended) at a concrete interaction list. -/
theorem build_graph_invariants_witness :
    ((0 : ℕ) ≠ 1 ∧ 0 < ([((0 : ℕ), 1), (0, 1), (1, 0)]).count ((0 : ℕ), 1))
    ∧ ((build_graph [((0 : ℕ), 1), (0, 1), (1, 0)]).nodes
          = claimNodeSet (([((0 : ℕ), 1), (0, 1), (1, 0)]).filter
              fun r => decide (r.1 ≠ r.2))
        ∧ (∀ e ∈ (build_graph [((0 : ℕ), 1), (0, 1), (1, 0)]).edges, e.1 ≠ e.2)
        ∧ ((0 : ℕ), 1) ∈ (build_graph [((0 : ℕ), 1), (0, 1), (1, 0)]).edges
        ∧ (build_graph [((0 : ℕ), 1), (0, 1), (1, 0)]).weight ((0 : ℕ), 1)
            = ([((0 : ℕ), 1), (0, 1), (1, 0)]).count ((0 : ℕ), 1)) :=
  ⟨⟨by decide, by decide⟩,
    build_graph_invariants [((0 : ℕ), 1), (0, 1), (1, 0)] 0 1 (by decide) (by decide)⟩

/-- C1 as stated is false: get_window_metadata reports the raw row count as
n_edges, while build_graph aggregates repeated ordered pairs into one
weighted edge, so a window holding the same pair twice breaks the round
trip. -/
theorem window_roundtrip_counterexample :
    ¬ ((get_window_metadata [⟨0, 1, 0⟩, ⟨0, 1, 1⟩] (0 : ℚ) 2).n_edges
        = (build_graph ((get_window_data [(⟨0, 1, 0⟩ : Interaction ℕ), ⟨0, 1, 1⟩]
            (0 : ℚ) 2).map interPair)).edges.card) := by
  decide

/-- C1 (amended): for a window whose interactions contain no self-loops and
no repeated ordered pair, the node and edge counts of the graph built from
the window agree with the n_nodes and n_edges of the window metadata. -/
theorem window_roundtrip (df : List (Interaction α)) (t_start t_end : ℚ)
    (hloop : ∀ r ∈ get_window_data df t_start t_end, r.src ≠ r.dst)
    (hdup : ((get_window_data df t_start t_end).map interPair).Nodup) :
    (get_window_metadata df t_start t_end).n_nodes
      = (build_graph ((get_window_data df t_start t_end).map interPair)).nodes.card
    ∧ (get_window_metadata df t_start t_end).n_edges
      = (build_graph ((get_window_data df t_start t_end).map interPair)).edges.card := by
  set w := get_window_data df t_start t_end with hw
  have hfilter : (w.map interPair).filter (fun r => decide (r.1 ≠ r.2))
      = w.map interPair := by
    apply List.filter_eq_self.mpr
    intro p hp
    obtain ⟨r, hr, hrp⟩ := List.mem_map.mp hp
    subst hrp
    simpa [interPair] using hloop r hr
  have hpairs : (w.map interPair).map Prod.fst = w.map Interaction.src := by
    rw [List.map_map]
    rfl
  have hpairs2 : (w.map interPair).map Prod.snd = w.map Interaction.dst := by
    rw [List.map_map]
    rfl
  by_cases hlen : w.length = 0
  · have hwnil : w = [] := List.length_eq_zero.mp hlen
    simp only [get_window_metadata, ← hw, if_pos hlen]
    rw [hwnil]
    constructor
    · simp [build_graph_nodes, claimNodeSet]
    · simp [build_graph_edges]
  · simp only [get_window_metadata, ← hw, if_neg hlen]
    constructor
    · rw [build_graph_nodes, hfilter]
      rw [claimNodeSet, hpairs, hpairs2]
    · rw [build_graph_edges, hfilter, List.toFinset_card_of_nodup hdup,
        List.length_map]

/-- Witness for C1 (amended) at a concrete two-row window. -/
theorem window_roundtrip_witness :
    ((∀ r ∈ get_window_data [(⟨0, 1, 0⟩ : Interaction ℕ), ⟨1, 0, 5⟩] (0 : ℚ) 10,
        r.src ≠ r.dst)
      ∧ ((get_window_data [(⟨0, 1, 0⟩ : Interaction ℕ), ⟨1, 0, 5⟩]
            (0 : ℚ) 10).map interPair).Nodup)
    ∧ ((get_window_metadata [(⟨0, 1, 0⟩ : Interaction ℕ), ⟨1, 0, 5⟩] (0 : ℚ) 10).n_nodes
        = (build_graph ((get_window_data [(⟨0, 1, 0⟩ : Interaction ℕ), ⟨1, 0, 5⟩]
            (0 : ℚ) 10).map interPair)).nodes.card
      ∧ (get_window_metadata [(⟨0, 1, 0⟩ : Interaction ℕ), ⟨1, 0, 5⟩] (0 : ℚ) 10).n_edges
        = (build_graph ((get_window_data [(⟨0, 1, 0⟩ : Interaction ℕ), ⟨1, 0, 5⟩]
            (0 : ℚ) 10).map interPair)).edges.card) :=
  ⟨⟨by decide, by decide⟩,
    window_roundtrip [(⟨0, 1, 0⟩ : Interaction ℕ), ⟨1, 0, 5⟩] 0 10
      (by decide) (by decide)⟩

/-! ### Top-k concentration share (metrics_core.py lines 118-140) -/

/-- calculate_topk_share: empty map gives 0.0, zero total gives 0.0, otherwise
the values are sorted descending and the share is the sum of the first k over
the total. -/
def calculate_topk_share (scores : List (α × ℚ)) (k : ℕ) : ℚ :=
  if scores = [] then 0
  else
    let total := (scores.map Prod.snd).sum
    if total = 0 then 0
    else (((scores.insertionSort fun a b => b.2 ≤ a.2).map Prod.snd).take k).sum / total

/-- C6 as stated is false: the one-entry map with score 0 sums to 0, so the
share is 0.0 for k = 1 even though k is at least the number of entries,
contradicting the claim that the share is 1.0 exactly when k reaches the map
size. -/
theorem calculate_topk_share_counterexample :
    ([((0 : ℕ), (0 : ℚ))] : List (ℕ × ℚ)).length ≤ 1
    ∧ calculate_topk_share [((0 : ℕ), (0 : ℚ))] 1 ≠ 1 := by
  refine ⟨by decide, ?_⟩
  norm_num [calculate_topk_share]

/-- C6 (amended): for every non-empty score map with all values positive the
share is monotonically non-decreasing in k and equals 1.0 exactly when k is
at least the number of entries; and for every score map whose values sum to
zero the share is 0.0 for every k. -/
theorem calculate_topk_share_props :
    (∀ (scores : List (α × ℚ)), scores ≠ [] → (∀ p ∈ scores, 0 < p.2) →
      ∀ k : ℕ, calculate_topk_share scores k ≤ calculate_topk_share scores (k + 1)
        ∧ (calculate_topk_share scores k = 1 ↔ scores.length ≤ k))
    ∧ ∀ (scores : List (α × ℚ)) (k : ℕ),
        (scores.map Prod.snd).sum = 0 → calculate_topk_share scores k = 0 := by
  constructor
  · intro scores hne hpos k
    have hperm : (scores.insertionSort fun a b => b.2 ≤ a.2).Perm scores :=
      List.perm_insertionSort _ _
    set vals := (scores.insertionSort fun a b => b.2 ≤ a.2).map Prod.snd with hvals
    have hvperm : vals.Perm (scores.map Prod.snd) := hperm.map _
    have hsum : vals.sum = (scores.map Prod.snd).sum := hvperm.sum_eq
    have hlen : vals.length = scores.length := by
      rw [hvperm.length_eq, List.length_map]
    have hvpos : ∀ x ∈ vals, 0 < x := by
      intro x hx
      have hx2 : x ∈ scores.map Prod.snd := hvperm.mem_iff.mp hx
      obtain ⟨p, hp, hpx⟩ := List.mem_map.mp hx2
      exact hpx ▸ hpos p hp
    have hvne : vals ≠ [] := by
      intro h
      apply hne
      have : vals.length = 0 := by rw [h]; rfl
      rw [hlen] at this
      exact List.length_eq_zero.mp this
    have htotpos : 0 < (scores.map Prod.snd).sum := by
      rw [← hsum]
      exact List.sum_pos vals hvpos hvne
    have hunfold : ∀ j : ℕ, calculate_topk_share scores j = (vals.take j).sum
        / (scores.map Prod.snd).sum := by
      intro j
      rw [calculate_topk_share, if_neg hne]
      simp only [if_neg htotpos.ne']
    have htake : ∀ j : ℕ, (vals.take j).sum ≤ (vals.take (j + 1)).sum := by
      intro j
      by_cases hj : j < vals.length
      · rw [List.take_succ, List.sum_append]
        have : 0 ≤ (vals[j]?.toList).sum := by
          rw [List.getElem?_eq_getElem hj]
          have := hvpos (vals[j]) (vals.getElem_mem hj)
          simpa using this.le
        linarith
      · push_neg at hj
        rw [List.take_of_length_le hj, List.take_of_length_le (by omega)]
    refine ⟨?_, ?_⟩
    · rw [hunfold k, hunfold (k + 1)]
      gcongr
      exact htake k
    · rw [hunfold k, div_eq_one_iff_eq htotpos.ne']
      constructor
      · intro hA
        by_contra hk
        push_neg at hk
        have hk' : k < vals.length := by rw [hlen]; exact hk
        have hsplit : (vals.take k).sum + (vals.drop k).sum = vals.sum := by
          rw [← List.sum_append, List.take_append_drop]
        have hdropne : vals.drop k ≠ [] := by
          intro h
          have h0 : vals.length - k = 0 := by rw [← List.length_drop, h]; rfl
          omega
        have hdroppos : 0 < (vals.drop k).sum :=
          List.sum_pos _ (fun x hx => hvpos x (List.mem_of_mem_drop hx)) hdropne
        rw [hA, hsum] at hsplit
        linarith
      · intro hk
        have hk' : vals.length ≤ k := by rw [hlen]; exact hk
        rw [List.take_of_length_le hk', hsum]
  · intro scores k hzero
    rw [calculate_topk_share]
    by_cases hne : scores = []
    · rw [if_pos hne]
    · rw [if_neg hne]
      simp [hzero]

/-- Witness for C6 (amended) at a concrete two-entry score map. -/
theorem calculate_topk_share_props_witness :
    (([((0 : ℕ), (1 : ℚ)), (1, 2)] : List (ℕ × ℚ)) ≠ []
      ∧ (∀ p ∈ ([((0 : ℕ), (1 : ℚ)), (1, 2)] : List (ℕ × ℚ)), 0 < p.2))
    ∧ (calculate_topk_share [((0 : ℕ), (1 : ℚ)), (1, 2)] 1
        ≤ calculate_topk_share [((0 : ℕ), (1 : ℚ)), (1, 2)] 2
      ∧ (calculate_topk_share [((0 : ℕ), (1 : ℚ)), (1, 2)] 1 = 1
        ↔ ([((0 : ℕ), (1 : ℚ)), (1, 2)] : List (ℕ × ℚ)).length ≤ 1)) :=
  ⟨⟨by decide, by decide⟩,
    calculate_topk_share_props.1 [((0 : ℕ), (1 : ℚ)), (1, 2)] (by decide) (by decide) 1⟩

/-! ### Partition agreement, NMI (community.py lines 150-180; the identical
helper calculate_nmi_between_communities in metrics_core.py lines 377-407)

Python represents a partition as a dict from node id to community id; here a
partition is a finite domain plus a labelling function. The sklearn score
normalized_mutual_info_score is modelled exactly over the reals: mutual
information over the contingency table divided by the arithmetic mean of the
two label entropies, with the sklearn special case that two single-cluster
labellings score 1.0. The float epsilon guard on the normalizer is dropped:
in exact arithmetic the normalizer is zero only in the special case handled
before it. -/

/-- Number of common nodes labelled i by f. -/
def classCount (c : Finset α) (f : α → ℕ) (i : ℕ) : ℕ :=
  (c.filter fun x => f x = i).card

/-- Number of common nodes labelled i by f and j by g. -/
def jointCount (c : Finset α) (f g : α → ℕ) (i j : ℕ) : ℕ :=
  (c.filter fun x => f x = i ∧ g x = j).card

/-- Entropy of a labelling over the common nodes. -/
noncomputable def entropy (c : Finset α) (f : α → ℕ) : ℝ :=
  -∑ i ∈ c.image f,
    ((classCount c f i : ℝ) / c.card) * Real.log ((classCount c f i : ℝ) / c.card)

/-- Mutual information of two labellings over the common nodes; zero cells of
the contingency table contribute nothing. -/
noncomputable def mutualInfo (c : Finset α) (f g : α → ℕ) : ℝ :=
  ∑ i ∈ c.image f, ∑ j ∈ c.image g,
    if jointCount c f g i j = 0 then 0
    else ((jointCount c f g i j : ℝ) / c.card)
      * Real.log ((jointCount c f g i j : ℝ) * c.card
          / ((classCount c f i : ℝ) * (classCount c g j : ℝ)))

/-- sklearn normalized_mutual_info_score with the default arithmetic
averaging. -/
noncomputable def nmiScore (c : Finset α) (f g : α → ℕ) : ℝ :=
  if (c.image f).card = 1 ∧ (c.image g).card = 1 then 1
  else mutualInfo c f g / ((entropy c f + entropy c g) / 2)

/-- Community partition: a node set with a community labelling. -/
structure Partition (α : Type) [DecidableEq α] where
  dom : Finset α
  lab : α → ℕ

/-- calculate_nmi: NaN (none) for an empty partition or fewer than two common
nodes, otherwise the sklearn score on the labels restricted to the common
nodes. -/
noncomputable def calculate_nmi (P Q : Partition α) : Option ℝ :=
  if P.dom = ∅ ∨ Q.dom = ∅ then none
  else
    if (P.dom ∩ Q.dom).card < 2 then none
    else some (nmiScore (P.dom ∩ Q.dom) P.lab Q.lab)

lemma classCount_pos (c : Finset α) (f : α → ℕ) (i : ℕ) (hi : i ∈ c.image f) :
    0 < classCount c f i := by
  obtain ⟨x, hx, hfx⟩ := Finset.mem_image.mp hi
  exact Finset.card_pos.mpr ⟨x, Finset.mem_filter.mpr ⟨hx, hfx⟩⟩

lemma classCount_le (c : Finset α) (f : α → ℕ) (i : ℕ) :
    classCount c f i ≤ c.card :=
  Finset.card_filter_le _ _

/-- With at least two classes present, every class misses some node. -/
lemma classCount_lt (c : Finset α) (f : α → ℕ) (i : ℕ)
    (h2 : 2 ≤ (c.image f).card) : classCount c f i < c.card := by
  obtain ⟨j, hj, hji⟩ : ∃ j ∈ c.image f, j ≠ i := by
    by_contra h
    push_neg at h
    have hsub : c.image f ⊆ {i} := fun j hj => Finset.mem_singleton.mpr (h j hj)
    have := Finset.card_le_card hsub
    simp at this
    omega
  obtain ⟨y, hy, hfy⟩ := Finset.mem_image.mp hj
  have hsub : c.filter (fun x => f x = i) ⊆ c.erase y := by
    intro x hx
    obtain ⟨hxc, hfx⟩ := Finset.mem_filter.mp hx
    refine Finset.mem_erase.mpr ⟨?_, hxc⟩
    intro hxy
    exact hji (by rw [← hfy, ← hxy, hfx])
  calc classCount c f i ≤ (c.erase y).card := Finset.card_le_card hsub
    _ < c.card := Finset.card_erase_lt_of_mem hy

/-- On identical labellings the mutual information collapses to the diagonal
of the contingency table and equals the entropy. -/
lemma mutualInfo_self (c : Finset α) (f : α → ℕ) (hc : c.Nonempty) :
    mutualInfo c f f = entropy c f := by
  have hn : (0 : ℝ) < c.card := by
    exact_mod_cast Finset.card_pos.mpr hc
  rw [mutualInfo, entropy, ← Finset.sum_neg_distrib]
  apply Finset.sum_congr rfl
  intro i hi
  rw [Finset.sum_eq_single_of_mem i hi]
  · have hjj : jointCount c f f i i = classCount c f i := by
      rw [jointCount, classCount]
      congr 1
      apply Finset.filter_congr
      intro x _
      simp
    have hpos : 0 < classCount c f i := classCount_pos c f i hi
    rw [hjj, if_neg (by omega)]
    have ha : (0 : ℝ) < (classCount c f i : ℝ) := by exact_mod_cast hpos
    have harg : (classCount c f i : ℝ) * c.card
        / ((classCount c f i : ℝ) * (classCount c f i : ℝ))
        = (c.card : ℝ) / classCount c f i := by
      field_simp
      ring
    rw [harg]
    rw [Real.log_div (by positivity) (by positivity), Real.log_div (by positivity) (by positivity)]
    ring
  · intro j hj hji
    have hzero : jointCount c f f i j = 0 := by
      rw [jointCount, Finset.card_eq_zero, Finset.filter_eq_empty_iff]
      intro x _
      rintro ⟨h1, h2⟩
      exact hji (by rw [← h2, h1])
    rw [if_pos hzero]

lemma entropy_pos (c : Finset α) (f : α → ℕ) (h2 : 2 ≤ (c.image f).card) :
    0 < entropy c f := by
  have hc : c.Nonempty := by
    rcases Finset.eq_empty_or_nonempty c with h | h
    · rw [h] at h2
      simp at h2
    · exact h
  have hn : (0 : ℝ) < c.card := by exact_mod_cast Finset.card_pos.mpr hc
  rw [entropy, ← Finset.sum_neg_distrib]
  apply Finset.sum_pos'
  · intro i hi
    have ha : (0 : ℝ) < (classCount c f i : ℝ) := by
      exact_mod_cast classCount_pos c f i hi
    have hle : (classCount c f i : ℝ) ≤ c.card := by
      exact_mod_cast classCount_le c f i
    have hfrac1 : (classCount c f i : ℝ) / c.card ≤ 1 := by
      rw [div_le_one hn]
      exact hle
    have hfracpos : 0 < (classCount c f i : ℝ) / c.card := by positivity
    have hlog : Real.log ((classCount c f i : ℝ) / c.card) ≤ 0 :=
      Real.log_nonpos hfracpos.le hfrac1
    nlinarith
  · obtain ⟨i, hi⟩ : (c.image f).Nonempty := by
      rw [← Finset.card_pos]
      omega
    refine ⟨i, hi, ?_⟩
    have ha : (0 : ℝ) < (classCount c f i : ℝ) := by
      exact_mod_cast classCount_pos c f i hi
    have hlt : (classCount c f i : ℝ) < c.card := by
      exact_mod_cast classCount_lt c f i h2
    have hfrac1 : (classCount c f i : ℝ) / c.card < 1 := by
      rw [div_lt_one hn]
      exact hlt
    have hfracpos : 0 < (classCount c f i : ℝ) / c.card := by positivity
    have hlog : Real.log ((classCount c f i : ℝ) / c.card) < 0 :=
      Real.log_neg hfracpos hfrac1
    nlinarith

lemma nmiScore_self (c : Finset α) (f : α → ℕ) (hc : 2 ≤ c.card) :
    nmiScore c f f = 1 := by
  have hne : c.Nonempty := Finset.card_pos.mp (by omega)
  rw [nmiScore]
  by_cases h1 : (c.image f).card = 1
  · rw [if_pos ⟨h1, h1⟩]
  · have himg : (c.image f).Nonempty := hne.image f
    have h2 : 2 ≤ (c.image f).card := by
      have := Finset.card_pos.mpr himg
      omega
    rw [if_neg (by tauto)]
    rw [mutualInfo_self c f hne]
    have hpos := entropy_pos c f h2
    have : (entropy c f + entropy c f) / 2 = entropy c f := by ring
    rw [this, div_self hpos.ne']

/-- C7: comparing a partition with at least two nodes to itself scores
exactly 1.0, and whenever fewer than two nodes are shared the score is the
NaN marker (none). -/
theorem calculate_nmi_agreement :
    (∀ P : Partition α, 2 ≤ P.dom.card → calculate_nmi P P = some 1)
    ∧ (∀ P Q : Partition α, (P.dom ∩ Q.dom).card < 2 → calculate_nmi P Q = none) := by
  constructor
  · intro P hP
    have hne : ¬(P.dom = ∅ ∨ P.dom = ∅) := by
      rw [or_self]
      intro h
      rw [h] at hP
      simp at hP
    rw [calculate_nmi, if_neg hne, Finset.inter_self]
    rw [if_neg (by omega)]
    rw [nmiScore_self P.dom P.lab hP]
  · intro P Q h
    rw [calculate_nmi]
    by_cases hne : P.dom = ∅ ∨ Q.dom = ∅
    · rw [if_pos hne]
    · rw [if_neg hne, if_pos h]

/-- Witness for C7 at concrete partitions over ℕ. -/
theorem calculate_nmi_agreement_witness :
    (2 ≤ (Partition.mk {0, 1} (fun x => x) : Partition ℕ).dom.card
      ∧ calculate_nmi (Partition.mk {0, 1} (fun x => x) : Partition ℕ)
          (Partition.mk {0, 1} (fun x => x)) = some 1)
    ∧ (((Partition.mk {0} (fun _ => 0) : Partition ℕ).dom
          ∩ (Partition.mk {1} (fun _ => 0) : Partition ℕ).dom).card < 2
      ∧ calculate_nmi (Partition.mk {0} (fun _ => 0) : Partition ℕ)
          (Partition.mk {1} (fun _ => 0)) = none) :=
  ⟨⟨by decide, calculate_nmi_agreement.1 _ (by decide)⟩,
    ⟨by decide, calculate_nmi_agreement.2 _ _ (by decide)⟩⟩

lemma classCount_relabel (c : Finset α) (g : α → ℕ) (r : ℕ → ℕ)
    (hr : Set.InjOn r ↑(c.image g)) (j : ℕ) (hj : j ∈ c.image g) :
    classCount c (r ∘ g) (r j) = classCount c g j := by
  rw [classCount, classCount]
  congr 1
  apply Finset.filter_congr
  intro x hx
  simp only [Function.comp_apply, decide_eq_true_eq]
  constructor
  · intro h
    exact hr (Finset.mem_coe.mpr (Finset.mem_image_of_mem g hx)) (Finset.mem_coe.mpr hj) h
  · intro h
    rw [h]

lemma jointCount_relabel (c : Finset α) (f g : α → ℕ) (r : ℕ → ℕ)
    (hr : Set.InjOn r ↑(c.image g)) (i j : ℕ) (hj : j ∈ c.image g) :
    jointCount c f (r ∘ g) i (r j) = jointCount c f g i j := by
  rw [jointCount, jointCount]
  congr 1
  apply Finset.filter_congr
  intro x hx
  simp only [Function.comp_apply, decide_eq_true_eq]
  constructor
  · rintro ⟨h1, h2⟩
    exact ⟨h1, hr (Finset.mem_coe.mpr (Finset.mem_image_of_mem g hx))
      (Finset.mem_coe.mpr hj) h2⟩
  · rintro ⟨h1, h2⟩
    exact ⟨h1, by rw [h2]⟩

lemma entropy_relabel (c : Finset α) (g : α → ℕ) (r : ℕ → ℕ)
    (hr : Set.InjOn r ↑(c.image g)) :
    entropy c (r ∘ g) = entropy c g := by
  rw [entropy, entropy]
  congr 1
  have himg : c.image (r ∘ g) = (c.image g).image r := (Finset.image_image).symm
  rw [himg]
  rw [Finset.sum_image (fun x hx y hy h => hr (Finset.mem_coe.mpr hx) (Finset.mem_coe.mpr hy) h)]
  apply Finset.sum_congr rfl
  intro j hj
  rw [classCount_relabel c g r hr j hj]

lemma mutualInfo_relabel (c : Finset α) (f g : α → ℕ) (r : ℕ → ℕ)
    (hr : Set.InjOn r ↑(c.image g)) :
    mutualInfo c f (r ∘ g) = mutualInfo c f g := by
  rw [mutualInfo, mutualInfo]
  apply Finset.sum_congr rfl
  intro i _
  have himg : c.image (r ∘ g) = (c.image g).image r := (Finset.image_image).symm
  rw [himg]
  rw [Finset.sum_image (fun x hx y hy h => hr (Finset.mem_coe.mpr hx) (Finset.mem_coe.mpr hy) h)]
  apply Finset.sum_congr rfl
  intro j hj
  rw [jointCount_relabel c f g r hr i j hj, classCount_relabel c g r hr j hj]

/-- C9: the agreement score is invariant under an injective renaming of the
community ids of the second partition: it depends only on the grouping
structure on the shared nodes, never on the label values. -/
theorem calculate_nmi_relabel_invariant (P Q : Partition α) (r : ℕ → ℕ)
    (hr : Set.InjOn r ↑(Q.dom.image Q.lab)) :
    calculate_nmi P (Partition.mk Q.dom (r ∘ Q.lab)) = calculate_nmi P Q := by
  have hrc : Set.InjOn r ↑((P.dom ∩ Q.dom).image Q.lab) := by
    apply hr.mono
    intro x hx
    obtain ⟨y, hy, hyx⟩ := Finset.mem_image.mp (Finset.mem_coe.mp hx)
    exact Finset.mem_coe.mpr
      (Finset.mem_image.mpr ⟨y, Finset.mem_of_mem_inter_right hy, hyx⟩)
  rw [calculate_nmi, calculate_nmi]
  by_cases hne : P.dom = ∅ ∨ Q.dom = ∅
  · rw [if_pos hne, if_pos hne]
  · rw [if_neg hne, if_neg hne]
    by_cases hcard : (P.dom ∩ Q.dom).card < 2
    · rw [if_pos hcard, if_pos hcard]
    · rw [if_neg hcard, if_neg hcard]
      congr 1
      set c := P.dom ∩ Q.dom with hc
      rw [nmiScore, nmiScore]
      have himgcard : (c.image (r ∘ Q.lab)).card = (c.image Q.lab).card := by
        rw [show c.image (r ∘ Q.lab) = (c.image Q.lab).image r from (Finset.image_image).symm]
        exact Finset.card_image_of_injOn hrc
      rw [mutualInfo_relabel c P.lab Q.lab r hrc, entropy_relabel c Q.lab r hrc, himgcard]

/-- Witness for C9: renaming community ids with the successor function (an
injective renaming) leaves the score unchanged on concrete partitions. -/
theorem calculate_nmi_relabel_invariant_witness :
    Set.InjOn Nat.succ
      ↑((Partition.mk {0, 1, 2} (fun x => x % 2) : Partition ℕ).dom.image
          (Partition.mk {0, 1, 2} (fun x => x % 2) : Partition ℕ).lab)
    ∧ calculate_nmi (Partition.mk {0, 1, 2} (fun x => x) : Partition ℕ)
        (Partition.mk (Partition.mk {0, 1, 2} (fun x => x % 2) : Partition ℕ).dom
          (Nat.succ ∘ (Partition.mk {0, 1, 2} (fun x => x % 2) : Partition ℕ).lab))
      = calculate_nmi (Partition.mk {0, 1, 2} (fun x => x) : Partition ℕ)
          (Partition.mk {0, 1, 2} (fun x => x % 2)) :=
  ⟨fun _ _ _ _ h => Nat.succ_injective h,
    calculate_nmi_relabel_invariant _ _ Nat.succ (fun _ _ _ _ h => Nat.succ_injective h)⟩

/-! ### Burst module (src/mimetics_metrics/burst.py)

Series are positionally indexed lists of rationals (the per-window metric
series carry a default integer range index in the pipeline). -/

/-- Maximum of a series; 0 on the empty list (never used on it below). -/
def listMax : List ℚ → ℚ
  | [] => 0
  | x :: xs => xs.foldl max x

/-- pandas Series.idxmax on a positional index: first index attaining the
maximum. -/
def idxmaxQ (l : List ℚ) : ℕ :=
  ((List.range l.length).find? fun i => decide (l.getD i 0 = listMax l)).getD 0

/-- pandas Series.idxmax over a series with missing values: skip the missing
entries, none when every entry is missing (pandas raises there). -/
def idxmaxOpt (l : List (Option ℚ)) : Option ℕ :=
  match l.filterMap id with
  | [] => none
  | v :: vs =>
    some (((List.range l.length).find?
      fun i => decide (l.getD i none = some (vs.foldl max v))).getD 0)

/-- Length of the maximal prefix equal to v (plateau scan of scipy
_local_maxima_1d). -/
def plateauLen : List ℚ → ℚ → ℕ
  | [], _ => 0
  | a :: t, v => if a = v then 1 + plateauLen t v else 0

/-- scipy _local_maxima_1d: strict local maxima with plateau handling; a
plateau [l, iAhead) bounded by strictly smaller neighbours reports its
midpoint. Boundary plateaus are not peaks. -/
def localMaxima (x : List ℚ) : List ℕ :=
  (List.range x.length).filterMap fun l =>
    if 1 ≤ l ∧ x.getD (l - 1) 0 < x.getD l 0 then
      let pl := plateauLen (x.drop (l + 1)) (x.getD l 0)
      let iAhead := min (l + 1 + pl) (x.length - 1)
      if x.getD iAhead 0 < x.getD l 0 then some ((l + iAhead - 1) / 2) else none
    else none

/-- Left walk of scipy _peak_prominences: descend from the peak while values
stay at or below the peak, tracking the minimum. The first argument after v
is the current index (acting as fuel). -/
def walkMinLeft (x : List ℚ) (v : ℚ) : ℕ → ℚ → ℚ
  | 0, acc => acc
  | i + 1, acc =>
    if x.getD i 0 ≤ v then walkMinLeft x v i (min acc (x.getD i 0)) else acc

/-- Right walk of scipy _peak_prominences, with explicit fuel. -/
def walkMinRight (x : List ℚ) (v : ℚ) : ℕ → ℕ → ℚ → ℚ
  | 0, _, acc => acc
  | fuel + 1, i, acc =>
    if i + 1 ≤ x.length - 1 ∧ x.getD (i + 1) 0 ≤ v then
      walkMinRight x v fuel (i + 1) (min acc (x.getD (i + 1) 0))
    else acc

/-- scipy peak prominence: peak height above the higher of the two base
minima. -/
def prominence (x : List ℚ) (p : ℕ) : ℚ :=
  x.getD p 0 - max (walkMinLeft x (x.getD p 0) p (x.getD p 0))
      (walkMinRight x (x.getD p 0) x.length p (x.getD p 0))

/-- scipy find_peaks with a minimum prominence requirement. -/
def findPeaks (x : List ℚ) (pmin : ℚ) : List ℕ :=
  (localMaxima x).filter fun p => decide (pmin ≤ prominence x p)

/-- pandas Series.rolling(window, center=True).mean(): defined where the
whole window fits, missing at the edges. -/
def rollingMeanCenter (v : List ℚ) (w : ℕ) : List (Option ℚ) :=
  (List.range v.length).map fun i =>
    let hi := i + (w - 1) / 2
    if w ≤ hi + 1 ∧ hi < v.length then
      some (((v.drop (hi + 1 - w)).take w).sum / (w : ℚ))
    else none

/-- Climax selection methods of find_onset_climax; an unknown method string
raises in the source, so the embedding carries exactly the supported three. -/
inductive ClimaxMethod
  | global_max
  | local_max
  | smoothed

/-- find_onset_climax (burst.py lines 74-129). Result none models an
exception escaping the function (pandas idxmax on an all-missing smoothed
slice, or a nonpositive rolling window). The onset is the first index at or
above the threshold; each climax is selected on the suffix starting at the
onset. -/
def find_onset_climax (values : List ℚ) (onset_threshold : ℚ)
    (climax_method : ClimaxMethod) (window_size : ℕ) :
    Option (Option ℕ × Option ℕ) :=
  if values = [] then some (none, none)
  else
    match (List.range values.length).find?
        (fun i => decide (onset_threshold ≤ values.getD i 0)) with
    | none => some (none, none)
    | some onset =>
      match climax_method with
      | ClimaxMethod.global_max =>
          some (some onset, some (onset + idxmaxQ (values.drop onset)))
      | ClimaxMethod.local_max =>
          match (findPeaks (values.drop onset) (1 / 10)).head? with
          | some p => some (some onset, some (onset + p))
          | none => some (some onset, some (onset + idxmaxQ (values.drop onset)))
      | ClimaxMethod.smoothed =>
          if window_size = 0 then none
          else
            match idxmaxOpt ((rollingMeanCenter values window_size).drop onset) with
            | some j => some (some onset, some (onset + j))
            | none => none

/-- C8: for every numeric series and every supported climax method, whenever
find_onset_climax returns two defined indices the onset is at most the
climax (every climax is chosen on the suffix starting at the onset); and
when no element reaches the onset threshold both indices are undefined. -/
theorem find_onset_climax_props :
    (∀ (values : List ℚ) (θ : ℚ) (m : ClimaxMethod) (w : ℕ) (o c : ℕ),
        find_onset_climax values θ m w = some (some o, some c) → o ≤ c)
    ∧ (∀ (values : List ℚ) (θ : ℚ) (m : ClimaxMethod) (w : ℕ),
        (∀ i < values.length, ¬ θ ≤ values.getD i 0) →
        find_onset_climax values θ m w = some (none, none)) := by
  constructor
  · intro values θ m w o c h
    rw [find_onset_climax] at h
    split at h
    · simp at h
    · split at h
      · simp at h
      · split at h
        · simp at h
          obtain ⟨ho, hc⟩ := h
          subst ho
          subst hc
          exact Nat.le_add_right _ _
        · split at h
          · simp at h
            obtain ⟨ho, hc⟩ := h
            subst ho
            subst hc
            exact Nat.le_add_right _ _
          · simp at h
            obtain ⟨ho, hc⟩ := h
            subst ho
            subst hc
            exact Nat.le_add_right _ _
        · split at h
          · simp at h
          · split at h
            · simp at h
              obtain ⟨ho, hc⟩ := h
              subst ho
              subst hc
              exact Nat.le_add_right _ _
            · simp at h
  · intro values θ m w hno
    rw [find_onset_climax]
    by_cases hv : values = []
    · rw [if_pos hv]
    · rw [if_neg hv]
      have hfind : (List.range values.length).find?
          (fun i => decide (θ ≤ values.getD i 0)) = none := by
        apply List.find?_eq_none.mpr
        intro i hi
        simpa using hno i (List.mem_range.mp hi)
      rw [hfind]

/-- Witness for C8 at concrete one-element series. -/
theorem find_onset_climax_props_witness :
    (find_onset_climax [(5 : ℚ)] 3 ClimaxMethod.global_max 3
        = some (some 0, some 0) ∧ (0 : ℕ) ≤ 0)
    ∧ ((∀ i < ([(5 : ℚ)] : List ℚ).length, ¬ (7 : ℚ) ≤ ([(5 : ℚ)] : List ℚ).getD i 0)
      ∧ find_onset_climax [(5 : ℚ)] 7 ClimaxMethod.global_max 3 = some (none, none)) :=
  ⟨⟨by decide, find_onset_climax_props.1 [5] 3 ClimaxMethod.global_max 3 0 0 (by decide)⟩,
   ⟨by decide, find_onset_climax_props.2 [5] 7 ClimaxMethod.global_max 3 (by decide)⟩⟩

/-! ### detect_burst (burst.py lines 15-71) -/

/-- np.percentile / np.quantile with the default linear interpolation:
position (n - 1) q in the sorted data, interpolating between the two
neighbouring order statistics. -/
def quantileQ (vals : List ℚ) (q : ℚ) : ℚ :=
  let s := vals.insertionSort (· ≤ ·)
  let pos := q * ((s.length : ℚ) - 1)
  let f : ℕ := ⌊pos⌋.toNat
  let frac := pos - (f : ℚ)
  s.getD f 0 + frac * (s.getD (f + 1) (s.getD f 0) - s.getD f 0)

/-- np.percentile: quantile at q / 100. -/
def percentileQ (vals : List ℚ) (q : ℚ) : ℚ :=
  quantileQ vals (q / 100)

/-- Mean of a series. -/
def meanQ (l : List ℚ) : ℚ :=
  l.sum / (l.length : ℚ)

/-- np.std squared: population variance (ddof 0). The source takes the square
root; the burst mask below decides the comparison against
mean + k * sqrt(var) exactly without leaving the rationals. -/
def popVarQ (l : List ℚ) : ℚ :=
  (l.map fun x => (x - meanQ l) ^ 2).sum / (l.length : ℚ)

/-- Exact decision of xv >= mean + k * sqrt var for rational inputs
(var nonnegative), by sign analysis and squaring. -/
def geMeanPlusTStd (xv mean k var : ℚ) : Bool :=
  let a := xv - mean
  if 0 ≤ k then decide (0 ≤ a) && decide (k ^ 2 * var ≤ a ^ 2)
  else decide (0 ≤ a) || decide (a ^ 2 ≤ k ^ 2 * var)

/-- Threshold methods of detect_burst with their threshold_value; an unknown
method string raises in the source. -/
inductive ThresholdMethod
  | percentile (q : ℚ)
  | std (k : ℚ)
  | fixed (c : ℚ)

/-- Burst mask: values at or above the computed threshold. -/
def burstMask : ThresholdMethod → List ℚ → List Bool
  | ThresholdMethod.percentile q, v => v.map fun x => decide (percentileQ v q ≤ x)
  | ThresholdMethod.std k, v => v.map fun x => geMeanPlusTStd x (meanQ v) k (popVarQ v)
  | ThresholdMethod.fixed c, v => v.map fun x => decide (c ≤ x)

/-- Run starts: np.where(np.diff(mask) == 1) + 1, prepending 0 when the mask
starts true. -/
def burst_starts (mask : List Bool) : List ℕ :=
  (if mask.getD 0 false then [0] else [])
    ++ (List.range mask.length).filter
        (fun i => decide (1 ≤ i) && mask.getD i false && !(mask.getD (i - 1) false))

/-- Run ends: np.where(np.diff(mask) == -1) + 1, appending the length when
the mask ends true. -/
def burst_ends (mask : List Bool) : List ℕ :=
  ((List.range mask.length).filter
      (fun i => decide (1 ≤ i) && !(mask.getD i false) && mask.getD (i - 1) false))
    ++ (if mask.getD (mask.length - 1) false then [mask.length] else [])

/-- The run extraction of detect_burst: zip the starts with the ends and keep
runs of at least the minimum length; nothing when the mask is all false. -/
def burstPeriods (mask : List Bool) (min_burst_length : ℕ) : List (ℕ × ℕ) :=
  if mask.any id then
    ((burst_starts mask).zip (burst_ends mask)).filter
      (fun p => decide (min_burst_length ≤ p.2 - p.1))
  else []

/-- detect_burst: none models the np.percentile exception for a percentile
outside [0, 100]; an empty series yields no bursts. -/
def detect_burst (values : List ℚ) (method : ThresholdMethod)
    (min_burst_length : ℕ) : Option (List (ℕ × ℕ)) :=
  if values = [] then some []
  else
    match method with
    | ThresholdMethod.percentile q =>
        if q < 0 ∨ 100 < q then none
        else some (burstPeriods (burstMask (ThresholdMethod.percentile q) values)
              min_burst_length)
    | ThresholdMethod.std k =>
        some (burstPeriods (burstMask (ThresholdMethod.std k) values) min_burst_length)
    | ThresholdMethod.fixed c =>
        some (burstPeriods (burstMask (ThresholdMethod.fixed c) values) min_burst_length)

/-! Recursive characterisation of the start/end transition indices, used to
prove the run invariants of the zip in burstPeriods. The parameter carries
the value of the previous mask entry. -/

/-- Run starts of a mask relative to a previous entry. -/
def startsT : Bool → List Bool → List ℕ
  | _, [] => []
  | prev, b :: t => (if b && !prev then [0] else []) ++ (startsT b t).map (· + 1)

/-- Run ends of a mask relative to a previous entry, closing a final open
run at the length. -/
def endsT : Bool → List Bool → List ℕ
  | prev, [] => if prev then [0] else []
  | prev, b :: t => (if prev && !b then [0] else []) ++ (endsT b t).map (· + 1)

lemma startsT_eq (m : List Bool) : ∀ prev : Bool,
    startsT prev m = (List.range m.length).filter
      (fun i => m.getD i false && !(if i = 0 then prev else m.getD (i - 1) false)) := by
  induction m with
  | nil => intro prev; rfl
  | cons b t ih =>
    intro prev
    rw [startsT, List.length_cons, List.range_succ_eq_map, List.filter_cons]
    rw [List.filter_map, ih b]
    have hcomp : ((fun i => (b :: t).getD i false
          && !(if i = 0 then prev else (b :: t).getD (i - 1) false)) ∘ Nat.succ)
        = fun i => t.getD i false && !(if i = 0 then b else t.getD (i - 1) false) := by
      funext i
      cases i with
      | zero => simp
      | succ j => simp
    rw [hcomp]
    have hsucc : (List.map Nat.succ (List.filter
        (fun i => t.getD i false && !(if i = 0 then b else t.getD (i - 1) false))
        (List.range t.length)))
        = (List.filter (fun i => t.getD i false && !(if i = 0 then b else t.getD (i - 1) false))
            (List.range t.length)).map (· + 1) := by
      simp [Nat.succ_eq_add_one]
    by_cases hb : (b && !prev) = true
    · have h0 : ((b :: t).getD 0 false
          && !(if (0 : ℕ) = 0 then prev else (b :: t).getD (0 - 1) false)) = true := by
        simpa using hb
      rw [h0, if_pos hb, hsucc]
      simp
    · have h0 : ((b :: t).getD 0 false
          && !(if (0 : ℕ) = 0 then prev else (b :: t).getD (0 - 1) false)) = false := by
        simpa using Bool.eq_false_iff.mpr hb
      rw [h0, if_neg hb, hsucc]
      simp

lemma endsT_eq (m : List Bool) : ∀ prev : Bool,
    endsT prev m = ((List.range m.length).filter
      (fun i => !(m.getD i false) && (if i = 0 then prev else m.getD (i - 1) false)))
      ++ (if (if m.length = 0 then prev else m.getD (m.length - 1) false)
          then [m.length] else []) := by
  induction m with
  | nil =>
    intro prev
    cases prev <;> rfl
  | cons b t ih =>
    intro prev
    rw [endsT, List.length_cons, List.range_succ_eq_map, List.filter_cons]
    rw [List.filter_map, ih b, List.map_append]
    have hcomp : ((fun i => !((b :: t).getD i false)
          && (if i = 0 then prev else (b :: t).getD (i - 1) false)) ∘ Nat.succ)
        = fun i => !(t.getD i false) && (if i = 0 then b else t.getD (i - 1) false) := by
      funext i
      cases i with
      | zero => simp
      | succ j => simp
    rw [hcomp]
    have hsucc : (List.map Nat.succ (List.filter
        (fun i => !(t.getD i false) && (if i = 0 then b else t.getD (i - 1) false))
        (List.range t.length)))
        = (List.filter (fun i => !(t.getD i false) && (if i = 0 then b else t.getD (i - 1) false))
            (List.range t.length)).map (· + 1) := by
      simp [Nat.succ_eq_add_one]
    have htail : ((if (if t.length = 0 then b else t.getD (t.length - 1) false)
          then [t.length] else []) : List ℕ).map (· + 1)
        = (if (if (b :: t).length = 0 then prev else (b :: t).getD ((b :: t).length - 1) false)
            then [(b :: t).length] else []) := by
      cases t with
      | nil => cases b <;> simp
      | cons c u =>
        simp only [List.length_cons, Nat.succ_sub_one]
        by_cases h : (c :: u).getD u.length false = true
        · have h2 : (b :: c :: u).getD (u.length + 1) false = true := by
            rwa [List.getD_cons_succ]
          rw [if_pos (by simpa using h), if_pos (by simpa using h2)]
          rfl
        · have h2 : ¬ ((b :: c :: u).getD (u.length + 1) false = true) := by
            rwa [List.getD_cons_succ]
          rw [if_neg (by simpa using h), if_neg (by simpa using h2)]
          rfl
    rw [hsucc, htail]
    by_cases hb : (prev && !b) = true
    · have h0 : (!((b :: t).getD 0 false)
          && (if (0 : ℕ) = 0 then prev else (b :: t).getD (0 - 1) false)) = true := by
        simp only [List.getD_cons_zero, if_pos rfl]
        rw [Bool.and_comm] at hb
        exact hb
      rw [h0, if_pos hb]
      simp
    · have h0 : (!((b :: t).getD 0 false)
          && (if (0 : ℕ) = 0 then prev else (b :: t).getD (0 - 1) false)) = false := by
        simp only [List.getD_cons_zero, if_pos rfl]
        rw [Bool.and_comm]
        exact Bool.eq_false_iff.mpr hb
      rw [h0, if_neg hb]
      simp

lemma burst_starts_eq (mask : List Bool) : burst_starts mask = startsT false mask := by
  rw [burst_starts, startsT_eq]
  cases mask with
  | nil => rfl
  | cons b t =>
    rw [List.length_cons, List.range_succ_eq_map, List.filter_cons, List.filter_cons]
    have hQ0 : (decide (1 ≤ (0 : ℕ)) && (b :: t).getD 0 false
        && !((b :: t).getD (0 - 1) false)) = false := by simp
    have hP0 : ((b :: t).getD 0 false
        && !(if (0 : ℕ) = 0 then false else (b :: t).getD (0 - 1) false)) = b := by simp
    rw [hQ0, hP0]
    have hrest : List.filter (fun i => decide (1 ≤ i) && (b :: t).getD i false
          && !((b :: t).getD (i - 1) false)) (List.map Nat.succ (List.range t.length))
        = List.filter (fun i => (b :: t).getD i false
          && !(if i = 0 then false else (b :: t).getD (i - 1) false))
            (List.map Nat.succ (List.range t.length)) := by
      rw [List.filter_map, List.filter_map]
      congr 1
      apply List.filter_congr
      intro i _
      simp
    rw [hrest]
    cases b with
    | true => simp
    | false => simp

lemma burst_ends_eq (mask : List Bool) : burst_ends mask = endsT false mask := by
  rw [burst_ends, endsT_eq]
  cases mask with
  | nil => rfl
  | cons b t =>
    rw [List.length_cons, List.range_succ_eq_map, List.filter_cons, List.filter_cons]
    have hQ0 : (decide (1 ≤ (0 : ℕ)) && !((b :: t).getD 0 false)
        && (b :: t).getD (0 - 1) false) = false := by simp
    have hP0 : (!((b :: t).getD 0 false)
        && (if (0 : ℕ) = 0 then false else (b :: t).getD (0 - 1) false)) = false := by simp
    rw [hQ0, hP0]
    have hrest : List.filter (fun i => decide (1 ≤ i) && !((b :: t).getD i false)
          && (b :: t).getD (i - 1) false) (List.map Nat.succ (List.range t.length))
        = List.filter (fun i => !((b :: t).getD i false)
          && (if i = 0 then false else (b :: t).getD (i - 1) false))
            (List.map Nat.succ (List.range t.length)) := by
      rw [List.filter_map, List.filter_map]
      congr 1
      apply List.filter_congr
      intro i _
      simp
    rw [hrest]
    simp


def runsAux : Option ℕ → ℕ → List Bool → List (ℕ × ℕ)
  | some s, i, [] => [(s, i)]
  | none, _, [] => []
  | some s, i, true :: t => runsAux (some s) (i + 1) t
  | some s, i, false :: t => (s, i) :: runsAux none (i + 1) t
  | none, i, true :: t => runsAux (some i) (i + 1) t
  | none, i, false :: t => runsAux none (i + 1) t

lemma endsT_true_ne_nil (m : List Bool) : endsT true m ≠ [] := by
  induction m with
  | nil => simp [endsT]
  | cons b t ih =>
    cases b with
    | false => simp [endsT]
    | true =>
      simp only [endsT, Bool.not_true, Bool.and_false, Bool.false_eq_true, if_false,
        List.nil_append]
      intro h
      exact ih (List.map_eq_nil_iff.mp h)

lemma map_add_shift (l : List ℕ) (off : ℕ) :
    (l.map (· + 1)).map (· + off) = l.map (· + (off + 1)) := by
  rw [List.map_map]
  apply List.map_congr_left
  intro x _
  simp
  omega

lemma startsT_false_cons_true (t : List Bool) :
    startsT false (true :: t) = 0 :: (startsT true t).map (· + 1) := by
  simp [startsT]

lemma startsT_false_cons_false (t : List Bool) :
    startsT false (false :: t) = (startsT false t).map (· + 1) := by
  simp [startsT]

lemma startsT_true_cons (b : Bool) (t : List Bool) :
    startsT true (b :: t) = (startsT b t).map (· + 1) := by
  cases b <;> simp [startsT]

lemma endsT_false_cons (b : Bool) (t : List Bool) :
    endsT false (b :: t) = (endsT b t).map (· + 1) := by
  simp [endsT]

lemma endsT_true_cons_true (t : List Bool) :
    endsT true (true :: t) = (endsT true t).map (· + 1) := by
  simp [endsT]

lemma endsT_true_cons_false (t : List Bool) :
    endsT true (false :: t) = 0 :: (endsT false t).map (· + 1) := by
  simp [endsT]

lemma runsAux_eq (m : List Bool) : ∀ off : ℕ,
    (runsAux none off m
      = ((startsT false m).map (· + off)).zip ((endsT false m).map (· + off)))
    ∧ ∀ s : ℕ, runsAux (some s) off m
        = (s, (endsT true m).headD 0 + off)
            :: ((startsT true m).map (· + off)).zip (((endsT true m).tail).map (· + off)) := by
  induction m with
  | nil =>
    intro off
    constructor
    · rfl
    · intro s
      simp [runsAux, endsT, startsT]
  | cons b t ih =>
    intro off
    cases b with
    | false =>
      constructor
      · show runsAux none (off + 1) t = _
        rw [(ih (off + 1)).1, startsT_false_cons_false, endsT_false_cons,
          map_add_shift, map_add_shift]
      · intro s
        show (s, off) :: runsAux none (off + 1) t = _
        rw [(ih (off + 1)).1, endsT_true_cons_false]
        simp only [List.headD_cons, List.tail_cons]
        rw [startsT_true_cons, map_add_shift, map_add_shift]
        simp
    | true =>
      obtain ⟨e, es, hE⟩ := List.exists_cons_of_ne_nil (endsT_true_ne_nil t)
      constructor
      · show runsAux (some off) (off + 1) t = _
        rw [(ih (off + 1)).2 off, hE, startsT_false_cons_true, endsT_false_cons, hE,
          List.map_cons, List.map_cons, List.map_cons]
        simp only [List.headD_cons, List.tail_cons, List.zip_cons_cons]
        rw [map_add_shift, map_add_shift]
        congr 1
        simp only [Prod.mk.injEq]
        omega
      · intro s
        show runsAux (some s) (off + 1) t = _
        rw [(ih (off + 1)).2 s, hE, endsT_true_cons_true, hE, List.map_cons,
          startsT_true_cons]
        simp only [List.headD_cons, List.tail_cons]
        rw [map_add_shift, map_add_shift]
        congr 1
        · simp only [Prod.mk.injEq]
          refine ⟨trivial, by omega⟩

def RunsChain : ℕ → List (ℕ × ℕ) → Prop
  | _, [] => True
  | lo, (s, e) :: rest => lo ≤ s ∧ s < e ∧ RunsChain e rest

lemma runsChain_mono {lo lo2 : ℕ} {l : List (ℕ × ℕ)} (h : lo ≤ lo2)
    (hc : RunsChain lo2 l) : RunsChain lo l := by
  cases l with
  | nil => trivial
  | cons p rest =>
    obtain ⟨h1, h2, h3⟩ := hc
    exact ⟨le_trans h h1, h2, h3⟩

lemma runsChain_lo_le {lo : ℕ} {l : List (ℕ × ℕ)} (hc : RunsChain lo l) :
    ∀ p ∈ l, lo ≤ p.1 ∧ p.1 < p.2 := by
  induction l generalizing lo with
  | nil => intro p hp; cases hp
  | cons q rest ih =>
    obtain ⟨h1, h2, h3⟩ := hc
    intro p hp
    rcases List.mem_cons.mp hp with hp | hp
    · subst hp
      exact ⟨h1, h2⟩
    · have := ih h3 p hp
      constructor
      · calc lo ≤ q.1 := h1
          _ ≤ q.2 := le_of_lt h2
          _ ≤ p.1 := this.1
      · exact this.2

lemma runsChain_filter {lo : ℕ} {l : List (ℕ × ℕ)} (q : ℕ × ℕ → Bool)
    (hc : RunsChain lo l) : RunsChain lo (l.filter q) := by
  induction l generalizing lo with
  | nil => trivial
  | cons p rest ih =>
    obtain ⟨h1, h2, h3⟩ := hc
    rw [List.filter_cons]
    by_cases hq : q p = true
    · rw [if_pos hq]
      exact ⟨h1, h2, ih h3⟩
    · rw [if_neg hq]
      apply runsChain_mono _ (ih h3)
      omega

lemma runsChain_chain' {lo : ℕ} {l : List (ℕ × ℕ)} (hc : RunsChain lo l) :
    List.Chain' (fun a b : ℕ × ℕ => a.2 ≤ b.1) l := by
  induction l generalizing lo with
  | nil => trivial
  | cons p rest ih =>
    obtain ⟨h1, h2, h3⟩ := hc
    apply List.Chain'.cons'
    · exact ih h3
    · intro b hb
      exact (runsChain_lo_le h3 b (List.mem_of_mem_head? hb)).1

lemma runsAux_chain (m : List Bool) : ∀ (off : ℕ) (p : Option ℕ),
    (∀ s0, p = some s0 → s0 < off) →
    RunsChain (match p with | none => off | some s0 => s0) (runsAux p off m)
    ∧ (∀ pr ∈ runsAux p off m, pr.2 ≤ off + m.length)
    ∧ (∀ pr ∈ runsAux p off m, ∀ i, pr.1 ≤ i → i < pr.2 → off ≤ i →
        m.getD (i - off) false = true) := by
  induction m with
  | nil =>
    intro off p hp
    match p with
    | none =>
      refine ⟨trivial, ?_, ?_⟩
      · intro pr hpr; cases hpr
      · intro pr hpr; cases hpr
    | some s0 =>
      have hs0 : s0 < off := hp s0 rfl
      refine ⟨⟨le_refl s0, hs0, trivial⟩, ?_, ?_⟩
      · intro pr hpr
        rcases List.mem_singleton.mp hpr with rfl
        simp
      · intro pr hpr
        rcases List.mem_singleton.mp hpr with rfl
        intro i h1 h2 h3
        omega
  | cons b t ih =>
    intro off p hp
    cases b with
    | true =>
      match p with
      | none =>
        have step : runsAux none off (true :: t) = runsAux (some off) (off + 1) t := rfl
        obtain ⟨hc, hbound, hmask⟩ := ih (off + 1) (some off) (by intro s0 hs0; cases hs0; omega)
        rw [step]
        refine ⟨hc, ?_, ?_⟩
        · intro pr hpr
          have := hbound pr hpr
          simpa [List.length_cons] using by omega
        · intro pr hpr i h1 h2 h3
          by_cases hio : i = off
          · subst hio
            simp
          · have h4 : off + 1 ≤ i := by omega
            have := hmask pr hpr i h1 h2 h4
            have hidx : i - off = (i - (off + 1)) + 1 := by omega
            rw [hidx, List.getD_cons_succ]
            exact this
      | some s0 =>
        have hs0 : s0 < off := hp s0 rfl
        have step : runsAux (some s0) off (true :: t) = runsAux (some s0) (off + 1) t := rfl
        obtain ⟨hc, hbound, hmask⟩ := ih (off + 1) (some s0) (by intro s1 hs1; cases hs1; omega)
        rw [step]
        refine ⟨hc, ?_, ?_⟩
        · intro pr hpr
          have := hbound pr hpr
          simpa [List.length_cons] using by omega
        · intro pr hpr i h1 h2 h3
          by_cases hio : i = off
          · subst hio
            simp
          · have h4 : off + 1 ≤ i := by omega
            have := hmask pr hpr i h1 h2 h4
            have hidx : i - off = (i - (off + 1)) + 1 := by omega
            rw [hidx, List.getD_cons_succ]
            exact this
    | false =>
      match p with
      | none =>
        have step : runsAux none off (false :: t) = runsAux none (off + 1) t := rfl
        obtain ⟨hc, hbound, hmask⟩ := ih (off + 1) none (by intro s0 hs0; cases hs0)
        rw [step]
        refine ⟨?_, ?_, ?_⟩
        · show RunsChain off _
          exact runsChain_mono (Nat.le_succ off) hc
        · intro pr hpr
          have := hbound pr hpr
          simpa [List.length_cons] using by omega
        · intro pr hpr i h1 h2 h3
          have hlo : off + 1 ≤ pr.1 := (runsChain_lo_le hc pr hpr).1
          have h4 : off + 1 ≤ i := by omega
          have := hmask pr hpr i h1 h2 h4
          have hidx : i - off = (i - (off + 1)) + 1 := by omega
          rw [hidx, List.getD_cons_succ]
          exact this
      | some s0 =>
        have hs0 : s0 < off := hp s0 rfl
        have step : runsAux (some s0) off (false :: t)
            = (s0, off) :: runsAux none (off + 1) t := rfl
        obtain ⟨hc, hbound, hmask⟩ := ih (off + 1) none (by intro s1 hs1; cases hs1)
        rw [step]
        refine ⟨?_, ?_, ?_⟩
        · show RunsChain s0 ((s0, off) :: runsAux none (off + 1) t)
          exact ⟨le_refl s0, hs0, runsChain_mono (Nat.le_succ off) hc⟩
        · intro pr hpr
          rcases List.mem_cons.mp hpr with rfl | hpr
          · simp
          · have := hbound pr hpr
            simpa [List.length_cons] using by omega
        · intro pr hpr i h1 h2 h3
          rcases List.mem_cons.mp hpr with rfl | hpr
          · simp at h1 h2
            omega
          · have hlo : off + 1 ≤ pr.1 := (runsChain_lo_le hc pr hpr).1
            have h4 : off + 1 ≤ i := by omega
            have := hmask pr hpr i h1 h2 h4
            have hidx : i - off = (i - (off + 1)) + 1 := by omega
            rw [hidx, List.getD_cons_succ]
            exact this

lemma popVarQ_nonneg (l : List ℚ) : 0 ≤ popVarQ l := by
  rw [popVarQ]
  apply div_nonneg
  · apply List.sum_nonneg
    intro x hx
    obtain ⟨y, _, rfl⟩ := List.mem_map.mp hx
    positivity
  · positivity

/-- The sqrt-free comparison decides exactly the real inequality against
mean + k * sqrt var. -/
lemma geMeanPlusTStd_iff (xv mean k var : ℚ) (hvar : 0 ≤ var) :
    geMeanPlusTStd xv mean k var = true
      ↔ (mean : ℝ) + (k : ℝ) * Real.sqrt ((var : ℚ) : ℝ) ≤ ((xv : ℚ) : ℝ) := by
  have hs : (0 : ℝ) ≤ Real.sqrt ((var : ℚ) : ℝ) := Real.sqrt_nonneg _
  have hs2 : Real.sqrt ((var : ℚ) : ℝ) ^ 2 = ((var : ℚ) : ℝ) :=
    Real.sq_sqrt (by exact_mod_cast hvar)
  rw [geMeanPlusTStd]
  by_cases hk : 0 ≤ k
  · rw [if_pos hk]
    simp only [Bool.and_eq_true, decide_eq_true_eq]
    have hk' : (0 : ℝ) ≤ (k : ℝ) := by exact_mod_cast hk
    constructor
    · rintro ⟨h1, h2⟩
      have h1' : (0 : ℝ) ≤ (xv : ℝ) - (mean : ℝ) := by
        have h1q : (0 : ℚ) ≤ xv - mean := h1
        exact_mod_cast h1q
      have h2' : (k : ℝ) ^ 2 * ((var : ℚ) : ℝ) ≤ ((xv : ℝ) - (mean : ℝ)) ^ 2 := by
        have h2q : (k : ℚ) ^ 2 * var ≤ (xv - mean) ^ 2 := h2
        exact_mod_cast h2q
      nlinarith [mul_nonneg hk' hs]
    · intro h
      have h' : (k : ℝ) * Real.sqrt ((var : ℚ) : ℝ) ≤ (xv : ℝ) - (mean : ℝ) := by
        linarith
      have hks : (0 : ℝ) ≤ (k : ℝ) * Real.sqrt ((var : ℚ) : ℝ) := mul_nonneg hk' hs
      constructor
      · have hr : (0 : ℝ) ≤ (xv : ℝ) - (mean : ℝ) := le_trans hks h'
        have hq : (0 : ℚ) ≤ xv - mean := by exact_mod_cast hr
        exact hq
      · have hsq : (k : ℝ) ^ 2 * ((var : ℚ) : ℝ) ≤ ((xv : ℝ) - (mean : ℝ)) ^ 2 := by
          nlinarith
        have hq : (k : ℚ) ^ 2 * var ≤ (xv - mean) ^ 2 := by exact_mod_cast hsq
        exact hq
  · rw [if_neg hk]
    simp only [Bool.or_eq_true, decide_eq_true_eq]
    have hk' : (k : ℝ) < 0 := by exact_mod_cast not_le.mp hk
    constructor
    · rintro (h1 | h2)
      · have h1' : (0 : ℝ) ≤ (xv : ℝ) - (mean : ℝ) := by
          have h1q : (0 : ℚ) ≤ xv - mean := h1
          exact_mod_cast h1q
        nlinarith [mul_nonpos_of_nonpos_of_nonneg hk'.le hs]
      · have h2' : ((xv : ℝ) - (mean : ℝ)) ^ 2 ≤ (k : ℝ) ^ 2 * ((var : ℚ) : ℝ) := by
          have h2q : ((xv - mean : ℚ)) ^ 2 ≤ (k : ℚ) ^ 2 * var := h2
          exact_mod_cast h2q
        by_cases ha : (0 : ℝ) ≤ (xv : ℝ) - (mean : ℝ)
        · nlinarith [mul_nonpos_of_nonpos_of_nonneg hk'.le hs]
        · push_neg at ha
          nlinarith [mul_nonpos_of_nonpos_of_nonneg hk'.le hs,
            sq_nonneg ((xv : ℝ) - (mean : ℝ) - (k : ℝ) * Real.sqrt ((var : ℚ) : ℝ))]
    · intro h
      by_cases ha : (0 : ℚ) ≤ xv - mean
      · exact Or.inl ha
      · right
        have ha' : (xv : ℝ) - (mean : ℝ) < 0 := by
          have haq : (xv - mean : ℚ) < 0 := not_le.mp ha
          exact_mod_cast haq
        have h' : (k : ℝ) * Real.sqrt ((var : ℚ) : ℝ) ≤ (xv : ℝ) - (mean : ℝ) := by
          linarith
        have hsq : ((xv : ℝ) - (mean : ℝ)) ^ 2 ≤ (k : ℝ) ^ 2 * ((var : ℚ) : ℝ) := by
          nlinarith
        have hq : ((xv - mean : ℚ)) ^ 2 ≤ (k : ℚ) ^ 2 * var := by exact_mod_cast hsq
        exact hq

/-- The threshold inequality the spec states for each method: the value at
index i meets or exceeds the computed threshold. The std method involves the
square root the source takes with np.std. -/
def ExceedsThreshold : ThresholdMethod → List ℚ → ℕ → Prop
  | ThresholdMethod.percentile q, v, i => percentileQ v q ≤ v.getD i 0
  | ThresholdMethod.fixed c, v, i => c ≤ v.getD i 0
  | ThresholdMethod.std k, v, i =>
      ((meanQ v : ℚ) : ℝ) + (k : ℝ) * Real.sqrt ((popVarQ v : ℚ) : ℝ)
        ≤ ((v.getD i 0 : ℚ) : ℝ)

lemma burstMask_length (m : ThresholdMethod) (v : List ℚ) :
    (burstMask m v).length = v.length := by
  cases m <;> simp [burstMask]

lemma burstMask_getD (m : ThresholdMethod) (v : List ℚ) (i : ℕ) (hi : i < v.length)
    (h : (burstMask m v).getD i false = true) : ExceedsThreshold m v i := by
  have hgd : v.getD i 0 = v[i] := List.getD_eq_getElem v 0 hi
  cases m with
  | percentile q =>
    rw [burstMask, List.getD_eq_getElem _ _ (by simpa using hi), List.getElem_map] at h
    rw [ExceedsThreshold, hgd]
    simpa using h
  | fixed c =>
    rw [burstMask, List.getD_eq_getElem _ _ (by simpa using hi), List.getElem_map] at h
    rw [ExceedsThreshold, hgd]
    simpa using h
  | std k =>
    rw [burstMask, List.getD_eq_getElem _ _ (by simpa using hi), List.getElem_map] at h
    rw [ExceedsThreshold, hgd]
    exact (geMeanPlusTStd_iff v[i] (meanQ v) k (popVarQ v) (popVarQ_nonneg v)).mp h

/-- C10: for every non-empty series, every (start, end) pair returned by
detect_burst satisfies start < end, end at most the series length, and
length at least min_burst_length; every value at an index inside the run
meets or exceeds the computed threshold; and the runs are pairwise disjoint
in strictly increasing order. -/
theorem detect_burst_invariants (values : List ℚ) (method : ThresholdMethod)
    (min_burst_length : ℕ) (hne : values ≠ []) (bs : List (ℕ × ℕ))
    (hbs : detect_burst values method min_burst_length = some bs) :
    (∀ pr ∈ bs, pr.1 < pr.2 ∧ pr.2 ≤ values.length ∧ min_burst_length ≤ pr.2 - pr.1
      ∧ ∀ i, pr.1 ≤ i → i < pr.2 → ExceedsThreshold method values i)
    ∧ List.Chain' (fun a b : ℕ × ℕ => a.2 ≤ b.1) bs := by
  have hmask : bs = burstPeriods (burstMask method values) min_burst_length := by
    rw [detect_burst.eq_def, if_neg hne] at hbs
    split at hbs
    · split at hbs
      · cases hbs
      · injection hbs with h
        exact h.symm
    · injection hbs with h
      exact h.symm
    · injection hbs with h
      exact h.symm
  rw [burstPeriods] at hmask
  by_cases hany : (burstMask method values).any id
  · rw [if_pos hany] at hmask
    have hzip : (burst_starts (burstMask method values)).zip
          (burst_ends (burstMask method values))
        = runsAux none 0 (burstMask method values) := by
      rw [burst_starts_eq, burst_ends_eq, (runsAux_eq (burstMask method values) 0).1]
      have hid : ∀ l : List ℕ, l.map (· + 0) = l := by
        intro l
        have h1 : l.map (· + 0) = l.map id := List.map_congr_left fun x _ => Nat.add_zero x
        rw [h1, List.map_id]
      rw [hid, hid]
    rw [hzip] at hmask
    obtain ⟨hc, hbound, hmaskProp⟩ :=
      runsAux_chain (burstMask method values) 0 none (by intro s0 h; cases h)
    have hc0 : RunsChain 0 (runsAux none 0 (burstMask method values)) := hc
    constructor
    · intro pr hpr
      rw [hmask] at hpr
      have hmem := (List.mem_filter.mp hpr).1
      have hpred : min_burst_length ≤ pr.2 - pr.1 := by
        have := (List.mem_filter.mp hpr).2
        simpa using this
      have hlt := (runsChain_lo_le hc0 pr hmem).2
      have hbd : pr.2 ≤ values.length := by
        have := hbound pr hmem
        rwa [Nat.zero_add, burstMask_length] at this
      refine ⟨hlt, hbd, hpred, ?_⟩
      intro i h1 h2
      have hprop := hmaskProp pr hmem i h1 h2 (Nat.zero_le i)
      rw [Nat.sub_zero] at hprop
      exact burstMask_getD method values i (by omega) hprop
    · rw [hmask]
      exact runsChain_chain' (runsChain_filter _ hc0)
  · rw [if_neg hany] at hmask
    rw [hmask]
    constructor
    · intro pr hpr
      cases hpr
    · trivial

/-- Witness for C10 at a concrete series with a fixed threshold. -/
theorem detect_burst_invariants_witness :
    (([(1 : ℚ), 5, 2] : List ℚ) ≠ []
      ∧ detect_burst [(1 : ℚ), 5, 2] (ThresholdMethod.fixed 4) 1 = some [(1, 2)])
    ∧ ((∀ pr ∈ ([(1, 2)] : List (ℕ × ℕ)), pr.1 < pr.2
        ∧ pr.2 ≤ ([(1 : ℚ), 5, 2] : List ℚ).length ∧ 1 ≤ pr.2 - pr.1
        ∧ ∀ i, pr.1 ≤ i → i < pr.2 →
            ExceedsThreshold (ThresholdMethod.fixed 4) [(1 : ℚ), 5, 2] i)
      ∧ List.Chain' (fun a b : ℕ × ℕ => a.2 ≤ b.1) ([(1, 2)] : List (ℕ × ℕ))) :=
  ⟨⟨by decide, by decide⟩,
    detect_burst_invariants [(1 : ℚ), 5, 2] (ThresholdMethod.fixed 4) 1
      (by decide) [(1, 2)] (by decide)⟩

/-! ### Dose-response module (src/mimetics_metrics/dose_response.py)

Rows carry one factor value and one response value, either possibly missing
(NaN). The qcut/cut binning, the per-bin statistics and the linear fit are
modelled exactly over the rationals; the correlation coefficient (the one
square root of the fit) is carried as its square plus a sign flag. -/

/-- pd.qcut edge computation: quantiles at i / n_bins with adjacent duplicate
edges dropped (np.unique on an already sorted edge list). -/
def qcutEdges (vals : List ℚ) (nb : ℕ) : List ℚ :=
  ((List.range (nb + 1)).map fun i => quantileQ vals ((i : ℚ) / (nb : ℚ))).destutter (· ≠ ·)

/-- pd.qcut with duplicates equal to drop: fewer than 2 distinct edges raises
ValueError, modelled as none. -/
def qcutBins (vals : List ℚ) (nb : ℕ) : Option (List ℚ) :=
  let e := qcutEdges vals nb
  if e.length < 2 then none else some e

/-- pd.cut with an integer bin count: equal-width edges from min to max, with
the pandas adjustment when the range is degenerate. -/
def cutEdges (vals : List ℚ) (nb : ℕ) : List ℚ :=
  let mn := seriesMin vals
  let mx := seriesMax vals
  if mn = mx then
    let adj : ℚ := if mn = 0 then 1 / 1000 else |mn| / 1000
    (List.range (nb + 1)).map fun i =>
      (mn - adj) + (i : ℚ) * ((mx + adj) - (mn - adj)) / (nb : ℚ)
  else (List.range (nb + 1)).map fun i => mn + (i : ℚ) * (mx - mn) / (nb : ℚ)

/-- The binning of calculate_dose_response_curves: quantile bins, falling
back to equal-width bins when quantile binning degenerates. -/
def doseBins (vals : List ℚ) (nb : ℕ) : List ℚ :=
  match qcutBins vals nb with
  | some e => e
  | none => cutEdges vals nb

/-- Bin index of a value: the first interval whose right edge is at or above
the value, the lowest edge included in the first bin. -/
def binOf (edges : List ℚ) (x : ℚ) : ℕ :=
  (((List.range (edges.length - 1)).find? fun j => decide (x ≤ edges.getD (j + 1) 0))).getD 0

/-- Sample variance (ddof 1), the square of pandas .std(); missing (NaN) for
fewer than two observations. -/
def sampleVarQ (l : List ℚ) : Option ℚ :=
  if l.length < 2 then none
  else some ((l.map fun x => (x - meanQ l) ^ 2).sum / ((l.length : ℚ) - 1))

/-- Per-bin statistics record of calculate_single_dose_response. -/
structure BinStat where
  bin_center : ℚ
  n_samples : ℕ
  mean : ℚ
  median : ℚ
  varSample : Option ℚ
  q25 : ℚ
  q75 : ℚ
  lo : ℚ
  hi : ℚ
  deriving DecidableEq

/-- Dose-response curve summary; corrSq with corrNeg carry the square and the
sign of np.corrcoef. -/
structure DoseCurve where
  slope : ℚ
  intercept : ℚ
  r2 : ℚ
  corrSq : Option ℚ
  corrNeg : Bool
  n_bins : ℕ
  total_samples : ℕ
  deriving DecidableEq

/-- Group sizes per bin, in bin order (observable used by the scenario
statements). -/
def doseBinCounts (rows : List (ℚ × Option ℚ)) (edges : List ℚ) : List ℕ :=
  (List.range (edges.length - 1)).map fun j =>
    (rows.filter fun r => decide (binOf edges r.1 = j)).length

/-- calculate_single_dose_response (dose_response.py lines 75-163): group the
rows by bin, skip bins with too few rows or no valid response, require at
least 2 surviving bins, then fit the bin means against the bin centers.
A zero-variance center column gives the minimum-norm least-squares solution
slope 0; r2 follows sklearn r2_score including its constant-target
convention. -/
def calculate_single_dose_response (rows : List (ℚ × Option ℚ)) (edges : List ℚ)
    (min_samples_per_bin : ℕ) : Option DoseCurve :=
  let groups := (List.range (edges.length - 1)).map fun j =>
    rows.filter fun r => decide (binOf edges r.1 = j)
  let bin_stats := groups.filterMap fun g =>
    if g.length < min_samples_per_bin then none
    else
      let resp := g.filterMap Prod.snd
      if resp.length = 0 then none
      else some { bin_center := meanQ (g.map Prod.fst), n_samples := resp.length,
                  mean := meanQ resp, median := quantileQ resp (1 / 2),
                  varSample := sampleVarQ resp, q25 := quantileQ resp (1 / 4),
                  q75 := quantileQ resp (3 / 4), lo := seriesMin resp,
                  hi := seriesMax resp }
  if bin_stats.length < 2 then none
  else
    let xs := bin_stats.map BinStat.bin_center
    let ys := bin_stats.map BinStat.mean
    let xbar := meanQ xs
    let ybar := meanQ ys
    let sxx := (xs.map fun x => (x - xbar) ^ 2).sum
    let syy := (ys.map fun y => (y - ybar) ^ 2).sum
    let sxy := ((xs.zip ys).map fun p => (p.1 - xbar) * (p.2 - ybar)).sum
    let slope := sxy / sxx
    let intercept := ybar - slope * xbar
    let ssres := ((xs.zip ys).map fun p => (p.2 - (slope * p.1 + intercept)) ^ 2).sum
    some { slope := slope, intercept := intercept,
           r2 := if syy = 0 then (if ssres = 0 then 1 else 0) else 1 - ssres / syy,
           corrSq := if sxx = 0 ∨ syy = 0 then none else some (sxy ^ 2 / (sxx * syy)),
           corrNeg := decide (sxy < 0), n_bins := bin_stats.length,
           total_samples := (bin_stats.map BinStat.n_samples).sum }

/-- calculate_dose_response_curves (dose_response.py lines 17-72), for one
response column: drop rows with a missing factor, bin the factors, delegate;
a response missing from the returned dict is none. -/
def calculate_dose_response_curves (rows : List (Option ℚ × Option ℚ))
    (n_bins min_samples_per_bin : ℕ) : Option DoseCurve :=
  let valid := rows.filterMap fun r => r.1.map fun f => (f, r.2)
  if valid.length = 0 then none
  else calculate_single_dose_response valid (doseBins (valid.map Prod.fst) n_bins)
    min_samples_per_bin

/-- Scenario C of the spec: factor values [0,0,1,1,1,1,2,2,2,2] with a
concrete fully-observed response column. -/
def scenarioC : List (Option ℚ × Option ℚ) :=
  [(some 0, some 1), (some 0, some 2), (some 1, some 3), (some 1, some 4),
   (some 1, some 5), (some 1, some 6), (some 2, some 7), (some 2, some 8),
   (some 2, some 9), (some 2, some 10)]

/-- The factor-response rows of scenario C after the (here trivial) factor
dropna. -/
def scenarioCValid : List (ℚ × Option ℚ) :=
  [(0, some 1), (0, some 2), (1, some 3), (1, some 4), (1, some 5),
   (1, some 6), (2, some 7), (2, some 8), (2, some 9), (2, some 10)]

lemma scenarioC_bins_eval : doseBins (scenarioCValid.map Prod.fst) 3 = [0, 1, 2] := by
  norm_num [scenarioCValid, doseBins, qcutBins, qcutEdges, quantileQ,
    List.insertionSort, List.orderedInsert, List.range_succ]
  simp only [Int.reduceToNat]
  norm_num [List.destutter, List.destutter']

lemma scenarioC_counts_eval : doseBinCounts scenarioCValid [0, 1, 2] = [6, 4] := by
  norm_num [scenarioCValid, doseBinCounts, binOf, List.range_succ, List.find?]

set_option maxHeartbeats 2000000 in
lemma scenarioC_curve_eval :
    calculate_dose_response_curves scenarioC 3 3
      = some ⟨15 / 4, 1, 1, some 1, false, 2, 10⟩ := by
  iterate 6
    try norm_num [calculate_dose_response_curves, scenarioC, List.filterMap_cons,
      calculate_single_dose_response, doseBins, qcutBins, qcutEdges, quantileQ,
      List.insertionSort, List.orderedInsert, List.range_succ, binOf, List.find?,
      meanQ, sampleVarQ, seriesMin, seriesMax, List.destutter, List.destutter']
    try simp only [Int.reduceToNat]

/-- C4 as stated is false: on the factor values [0,0,1,1,1,1,2,2,2,2] the
quantile edges collapse to [0, 1, 2] (the 1/3 and 2/3 quantiles are 1 and 2),
so the bins hold 6 and 4 samples rather than (2, 4, 4); no bin is dropped and
the module returns a curve rather than None. -/
theorem dose_response_scenarioC_counterexample :
    doseBinCounts scenarioCValid (doseBins (scenarioCValid.map Prod.fst) 3) ≠ [2, 4, 4]
    ∧ calculate_dose_response_curves scenarioC 3 3 ≠ none := by
  rw [scenarioC_bins_eval, scenarioC_counts_eval, scenarioC_curve_eval]
  exact ⟨by decide, fun h => by cases h⟩

/-- C4 (amended): the scenario factor values binned into 3 quantile bins with
min_samples_per_bin 3 give two bins of 6 and 4 samples (duplicate quantile
edges dropped), no bin is discarded, and for the fully observed response
1..10 a curve is returned with slope 15/4, intercept 1 and r2 1 over 2 bins
and 10 samples. -/
theorem dose_response_scenarioC :
    doseBins (scenarioCValid.map Prod.fst) 3 = [0, 1, 2]
    ∧ doseBinCounts scenarioCValid (doseBins (scenarioCValid.map Prod.fst) 3) = [6, 4]
    ∧ calculate_dose_response_curves scenarioC 3 3
        = some ⟨15 / 4, 1, 1, some 1, false, 2, 10⟩ := by
  rw [scenarioC_bins_eval, scenarioC_counts_eval, scenarioC_curve_eval]
  exact ⟨rfl, rfl, rfl⟩

/-! ### detect_threshold_effects (dose_response.py lines 241-328)

Rows carry one factor and one response value, each possibly missing. The
columns themselves are assumed present (the missing-column branch also
returns the empty dict). scipy.stats.ttest_ind is called with its default
equal_var=True, the pooled two-sample test; its statistic and Cohen's d are
carried as squares plus a sign flag, NaN as none (a zero pooled variance
makes both undefined, and a single-observation group makes the pandas
std NaN, which propagates through the pooled term). -/

/-- Split point selection methods; an unknown method string raises. -/
inductive SplitMethod
  | percentile
  | median
  | mean

/-- Effect size classification of the standardized mean difference. -/
inductive EffectSize
  | small
  | medium
  | large
  deriving DecidableEq

/-- Rows with both factor and response present (dropna on the two columns). -/
def validRows (rows : List (Option ℚ × Option ℚ)) : List (ℚ × ℚ) :=
  rows.filterMap fun r => match r.1, r.2 with
    | some f, some y => some (f, y)
    | _, _ => none

/-- The split point: a factor percentile, the factor median, or the factor
mean. -/
def splitThreshold (method : SplitMethod) (tv : ℚ) (factors : List ℚ) : ℚ :=
  match method with
  | SplitMethod.percentile => percentileQ factors tv
  | SplitMethod.median => quantileQ factors (1 / 2)
  | SplitMethod.mean => meanQ factors

/-- Rows at or below the split point. -/
def lowGroup (rows : List (Option ℚ × Option ℚ)) (method : SplitMethod) (tv : ℚ) :
    List (ℚ × ℚ) :=
  (validRows rows).filter fun r =>
    decide (r.1 ≤ splitThreshold method tv ((validRows rows).map Prod.fst))

/-- Rows strictly above the split point. -/
def highGroup (rows : List (Option ℚ × Option ℚ)) (method : SplitMethod) (tv : ℚ) :
    List (ℚ × ℚ) :=
  (validRows rows).filter fun r =>
    decide (¬ r.1 ≤ splitThreshold method tv ((validRows rows).map Prod.fst))

/-- Pooled variance of the equal-variance two-sample test (the square of the
pooled standard deviation the source computes); missing when either group
variance is NaN. -/
def pooledVar (n1 : ℕ) (v1 : Option ℚ) (n2 : ℕ) (v2 : Option ℚ) : Option ℚ :=
  match v1, v2 with
  | some a, some b =>
      some ((((n1 : ℚ) - 1) * a + ((n2 : ℚ) - 1) * b) / ((n1 : ℚ) + (n2 : ℚ) - 2))
  | _, _ => none

/-- Threshold-effect report record. -/
structure ThresholdReport where
  threshold : ℚ
  lowN : ℕ
  lowMean : ℚ
  lowVar : Option ℚ
  lowMedian : ℚ
  highN : ℕ
  highMean : ℚ
  highVar : Option ℚ
  highMedian : ℚ
  tStatSq : Option ℚ
  tNeg : Bool
  cohensDSq : Option ℚ
  dNeg : Bool
  effect : EffectSize
  deriving DecidableEq

/-- detect_threshold_effects: empty dict (none) for fewer than 10 valid rows
or an empty group; otherwise group statistics, the pooled t statistic and the
Cohen's d classification (squared thresholds 1/4 and 16/25 for 0.5 and 0.8;
an undefined d classifies as large, matching the float comparison chain on
NaN). -/
def detect_threshold_effects (rows : List (Option ℚ × Option ℚ))
    (method : SplitMethod) (tv : ℚ) : Option ThresholdReport :=
  if (validRows rows).length < 10 then none
  else
    let low := lowGroup rows method tv
    let high := highGroup rows method tv
    if low.length = 0 ∨ high.length = 0 then none
    else
      let lowR := low.map Prod.snd
      let highR := high.map Prod.snd
      let pv := pooledVar low.length (sampleVarQ lowR) high.length (sampleVarQ highR)
      let diff := meanQ highR - meanQ lowR
      let tSq : Option ℚ := match pv with
        | some p => if p = 0 then none
            else some (diff ^ 2 / (p * (1 / (low.length : ℚ) + 1 / (high.length : ℚ))))
        | none => none
      let dSq : Option ℚ := match pv with
        | some p => if 0 < p then some (diff ^ 2 / p) else none
        | none => none
      some { threshold := splitThreshold method tv ((validRows rows).map Prod.fst),
             lowN := low.length, lowMean := meanQ lowR, lowVar := sampleVarQ lowR,
             lowMedian := quantileQ lowR (1 / 2), highN := high.length,
             highMean := meanQ highR, highVar := sampleVarQ highR,
             highMedian := quantileQ highR (1 / 2), tStatSq := tSq,
             tNeg := decide (diff < 0), cohensDSq := dSq, dNeg := decide (diff < 0),
             effect := match dSq with
               | none => EffectSize.large
               | some s => if s < 1 / 4 then EffectSize.small
                   else if s < 16 / 25 then EffectSize.medium else EffectSize.large }

/-- Welch two-sample t statistic squared. Modelled from the spec: the
"two-sample mean-difference test with unequal-variance assumption" the spec
describes, for comparison with the pooled statistic the code computes. -/
def welchTSq (l1 l2 : List ℚ) : Option ℚ :=
  match sampleVarQ l1, sampleVarQ l2 with
  | some a, some b =>
      if a / (l1.length : ℚ) + b / (l2.length : ℚ) = 0 then none
      else some ((meanQ l2 - meanQ l1) ^ 2
            / (a / (l1.length : ℚ) + b / (l2.length : ℚ)))
  | _, _ => none

/-- Four fully observed rows: both groups of a median split are non-empty,
yet the function returns the empty dict because fewer than 10 valid rows are
present. -/
def thresholdRowsShort : List (Option ℚ × Option ℚ) :=
  [(some 1, some 1), (some 2, some 2), (some 3, some 3), (some 4, some 4)]

/-- Ten fully observed rows with unbalanced groups for which the pooled and
the Welch statistics differ. -/
def thresholdRowsWelch : List (Option ℚ × Option ℚ) :=
  [(some 1, some 0), (some 1, some 0), (some 1, some 6), (some 2, some 3),
   (some 2, some 3), (some 2, some 3), (some 2, some 3), (some 2, some 3),
   (some 2, some 3), (some 2, some 10)]

lemma thresholdShort_eval :
    detect_threshold_effects thresholdRowsShort SplitMethod.median 50 = none := by
  norm_num [detect_threshold_effects, thresholdRowsShort, validRows, List.filterMap_cons]

set_option maxHeartbeats 1000000 in
lemma thresholdShort_groups :
    (lowGroup thresholdRowsShort SplitMethod.median 50).length = 2
    ∧ (highGroup thresholdRowsShort SplitMethod.median 50).length = 2 := by
  iterate 4
    try norm_num [lowGroup, highGroup, thresholdRowsShort, validRows,
      List.filterMap_cons, splitThreshold, quantileQ, List.insertionSort,
      List.orderedInsert]
    try simp only [Int.reduceToNat]

set_option maxHeartbeats 4000000 in
lemma thresholdWelch_eval :
    detect_threshold_effects thresholdRowsWelch SplitMethod.percentile 30
      = some ⟨17 / 10, 3, 2, some 12, 0, 7, 4, some 7, 3, some (56 / 55), false,
          some (16 / 33), false, EffectSize.medium⟩ := by
  iterate 6
    try norm_num [detect_threshold_effects, thresholdRowsWelch, validRows,
      List.filterMap_cons, lowGroup, highGroup, splitThreshold, percentileQ,
      quantileQ, List.insertionSort, List.orderedInsert, meanQ, sampleVarQ,
      pooledVar]
    try simp only [Int.reduceToNat]

set_option maxHeartbeats 2000000 in
lemma thresholdWelch_welch :
    welchTSq ((lowGroup thresholdRowsWelch SplitMethod.percentile 30).map Prod.snd)
        ((highGroup thresholdRowsWelch SplitMethod.percentile 30).map Prod.snd)
      = some (4 / 5) := by
  iterate 6
    try norm_num [welchTSq, thresholdRowsWelch, validRows, List.filterMap_cons,
      lowGroup, highGroup, splitThreshold, percentileQ, quantileQ,
      List.insertionSort, List.orderedInsert, meanQ, sampleVarQ]
    try simp only [Int.reduceToNat]

/-- C5 as stated is false on two counts. With four valid rows a median split
leaves both groups non-empty, yet the function returns the empty dict (the
fewer-than-ten-rows guard fires), so the empty dict is not returned exactly
when a group is empty. And the mean-difference test run is the pooled
equal-variance t test (scipy default), not the unequal-variance test: on ten
unbalanced rows the squared statistic is 56/55 while the Welch statistic the
spec describes is 4/5. -/
theorem detect_threshold_effects_counterexample :
    (detect_threshold_effects thresholdRowsShort SplitMethod.median 50 = none
      ∧ (lowGroup thresholdRowsShort SplitMethod.median 50).length ≠ 0
      ∧ (highGroup thresholdRowsShort SplitMethod.median 50).length ≠ 0)
    ∧ ((detect_threshold_effects thresholdRowsWelch SplitMethod.percentile 30).map
          ThresholdReport.tStatSq = some (some (56 / 55))
      ∧ welchTSq ((lowGroup thresholdRowsWelch SplitMethod.percentile 30).map Prod.snd)
          ((highGroup thresholdRowsWelch SplitMethod.percentile 30).map Prod.snd)
        = some (4 / 5)
      ∧ ((56 : ℚ) / 55) ≠ 4 / 5) := by
  refine ⟨⟨thresholdShort_eval, ?_, ?_⟩, ?_, thresholdWelch_welch, by norm_num⟩
  · rw [thresholdShort_groups.1]
    decide
  · rw [thresholdShort_groups.2]
    decide
  · rw [thresholdWelch_eval]
    rfl

/-- C5 (amended): detect_threshold_effects splits the valid rows into the
low group (factor at or below the split point) and the high group (factor
strictly above), a partition of the valid rows; it runs the pooled
equal-variance two-sample test; and it returns the empty dict exactly when
fewer than 10 rows have both factor and response present or either group is
empty. -/
theorem detect_threshold_effects_props (rows : List (Option ℚ × Option ℚ))
    (method : SplitMethod) (tv : ℚ) :
    (detect_threshold_effects rows method tv = none
      ↔ (validRows rows).length < 10 ∨ (lowGroup rows method tv).length = 0
          ∨ (highGroup rows method tv).length = 0)
    ∧ ∀ rep, detect_threshold_effects rows method tv = some rep →
        rep.threshold = splitThreshold method tv ((validRows rows).map Prod.fst)
        ∧ rep.lowN = (lowGroup rows method tv).length
        ∧ rep.highN = (highGroup rows method tv).length
        ∧ rep.lowN + rep.highN = (validRows rows).length
        ∧ (∀ r ∈ lowGroup rows method tv, r.1 ≤ rep.threshold)
        ∧ (∀ r ∈ highGroup rows method tv, rep.threshold < r.1) := by
  have hsum : (lowGroup rows method tv).length + (highGroup rows method tv).length
      = (validRows rows).length := by
    have h := List.length_eq_length_filter_add
      (l := validRows rows)
      (fun r => decide (r.1 ≤ splitThreshold method tv ((validRows rows).map Prod.fst)))
    rw [lowGroup, highGroup]
    have hfun : (fun r : ℚ × ℚ =>
          decide (¬ r.1 ≤ splitThreshold method tv ((validRows rows).map Prod.fst)))
        = (fun r : ℚ × ℚ =>
          !(decide (r.1 ≤ splitThreshold method tv ((validRows rows).map Prod.fst)))) := by
      funext r
      exact decide_not
    rw [hfun]
    exact h.symm
  constructor
  · by_cases h10 : (validRows rows).length < 10
    · rw [detect_threshold_effects, if_pos h10]
      exact iff_of_true rfl (Or.inl h10)
    · rw [detect_threshold_effects, if_neg h10]
      by_cases hg : (lowGroup rows method tv).length = 0
          ∨ (highGroup rows method tv).length = 0
      · rw [if_pos hg]
        exact iff_of_true rfl (Or.inr hg)
      · rw [if_neg hg]
        exact iff_of_false (Option.some_ne_none _) (by tauto)
  · intro rep hrep
    by_cases h10 : (validRows rows).length < 10
    · rw [detect_threshold_effects, if_pos h10] at hrep
      cases hrep
    · by_cases hg : (lowGroup rows method tv).length = 0
          ∨ (highGroup rows method tv).length = 0
      · rw [detect_threshold_effects, if_neg h10, if_pos hg] at hrep
        cases hrep
      · simp only [detect_threshold_effects, if_neg h10, if_neg hg] at hrep
        injection hrep with hrep
        subst hrep
        refine ⟨rfl, rfl, rfl, hsum, ?_, ?_⟩
        · intro r hr
          rw [lowGroup] at hr
          have := (List.mem_filter.mp hr).2
          simpa using this
        · intro r hr
          rw [highGroup] at hr
          have := (List.mem_filter.mp hr).2
          simp at this
          exact this

/-- Witness for C5 (amended) at the ten-row input. -/
theorem detect_threshold_effects_props_witness :
    detect_threshold_effects thresholdRowsWelch SplitMethod.percentile 30
        = some ⟨17 / 10, 3, 2, some 12, 0, 7, 4, some 7, 3, some (56 / 55), false,
            some (16 / 33), false, EffectSize.medium⟩
    ∧ (⟨17 / 10, 3, 2, some 12, 0, 7, 4, some 7, 3, some (56 / 55), false,
          some (16 / 33), false, EffectSize.medium⟩ : ThresholdReport).lowN
        + (⟨17 / 10, 3, 2, some 12, 0, 7, 4, some 7, 3, some (56 / 55), false,
            some (16 / 33), false, EffectSize.medium⟩ : ThresholdReport).highN
        = (validRows thresholdRowsWelch).length
    ∧ ∀ r ∈ lowGroup thresholdRowsWelch SplitMethod.percentile 30,
        r.1 ≤ (⟨17 / 10, 3, 2, some 12, 0, 7, 4, some 7, 3, some (56 / 55), false,
            some (16 / 33), false, EffectSize.medium⟩ : ThresholdReport).threshold :=
  ⟨thresholdWelch_eval,
    ((detect_threshold_effects_props thresholdRowsWelch SplitMethod.percentile 30).2
      _ thresholdWelch_eval).2.2.2.1,
    fun r hr =>
      ((detect_threshold_effects_props thresholdRowsWelch SplitMethod.percentile 30).2
        _ thresholdWelch_eval).2.2.2.2.1 r hr⟩

end Mimetics
